import Mathlib

/-!
Verification of the Document Indexing and Hybrid Retrieval Engine
(ragbot-core).  Python source is shallowly embedded: strings are modelled
as `String`/`List Char`, Python `dict` as insertion-ordered association
lists, Python floats as exact rationals `ℚ`, fallible code as `Except`,
and external collaborators (the embedding model, the cross-encoder, the
BM25 library, the vector store, `uuid5`) as explicit function or state
parameters.  Python `list.sort`/`sorted` with `reverse=True` is a stable
sort; any stable sort of a list by a key is extensionally unique, so it
is modelled by the stable descending insertion sort `sortDesc` below.
-/

/-! ### Stable descending sort by a rational key
Model of Python `sorted(xs, key=f, reverse=True)` / `xs.sort(key=f, reverse=True)`:
stable, so elements with equal keys keep their original relative order. -/

/-- Insert `x` into a descending-sorted list, before the first element whose
key is not larger — so `x` lands after strictly larger keys and before
equal ones that came later in the original list (stability). -/
def insertDesc {α : Type} (f : α → ℚ) (x : α) : List α → List α
  | [] => [x]
  | y :: rest => if f y ≤ f x then x :: y :: rest else y :: insertDesc f x rest

/-- Stable sort, descending by the key `f`. -/
def sortDesc {α : Type} (f : α → ℚ) : List α → List α
  | [] => []
  | x :: rest => insertDesc f x (sortDesc f rest)

/-- The ordering a stable descending sort guarantees: a pair that appears in
order either has strictly descending keys, or equal keys and stands in the
original relation `Q`. -/
def rankedBy {α : Type} (f : α → ℚ) (Q : α → α → Prop) (a b : α) : Prop :=
  f b < f a ∨ (f a = f b ∧ Q a b)

/-! ### Insertion-ordered association lists (Python `dict`)
A `dict` keeps keys in insertion order; updating an existing key keeps its
position, a new key is appended. -/

/-- `m[key] = m.get(key, 0.0) + add` on an insertion-ordered map. -/
def updateScore : List (String × ℚ) → String → ℚ → List (String × ℚ)
  | [], id, add => [(id, add)]
  | (key, v) :: rest, id, add =>
      if key = id then (key, v + add) :: rest else (key, v) :: updateScore rest id add

/-- `m.get(key)` on an insertion-ordered map. -/
def lookupQ : List (String × ℚ) → String → Option ℚ
  | [], _ => none
  | (key, v) :: rest, id => if key = id then some v else lookupQ rest id

/-- `m.get(key, dflt)`. -/
def lookupD (m : List (String × ℚ)) (id : String) (dflt : ℚ) : ℚ :=
  (lookupQ m id).getD dflt

/-! ### First-seen order and per-rank contributions (spec side) -/

/-- Accumulate ids in order of first appearance (`insertIds acc l` appends the
ids of `l` that are not yet present, in order). -/
def insertIds (acc : List String) : List String → List String
  | [] => acc
  | id :: rest => insertIds (if id ∈ acc then acc else acc ++ [id]) rest

/-- The distinct ids of a family of lists, in order of first appearance. -/
def firstSeen (rs : List (List String)) : List String := rs.foldl insertIds []

/-- 0-based index of the first occurrence of `id` in `l`. -/
def rank0Of : List String → String → Option Nat
  | [], _ => none
  | x :: rest, id => if x = id then some 0 else (rank0Of rest id).map (· + 1)

/-- `x` was first seen strictly before `y` in the first-seen list `fs`. -/
def seenlt (fs : List String) (x y : String) : Prop :=
  ∃ i j, rank0Of fs x = some i ∧ rank0Of fs y = some j ∧ i < j

/-- Spec-side contribution of one ranked list: `1 / (k + rank)` where `rank`
is the 1-based position of `id` in the list, and `0` when absent. -/
def rrfContribution (k : Nat) (l : List String) (id : String) : ℚ :=
  match rank0Of l id with
  | some i => 1 / ((k : ℚ) + (i + 1))
  | none => 0

/-- Spec-side fused score: the sum of the per-list contributions. -/
def rrfSpecScore (rs : List (List String)) (k : Nat) (id : String) : ℚ :=
  (rs.map (fun l => rrfContribution k l id)).sum

/-- Proof-side accumulator: contribution of a list scanned with ranks
starting at `r`, summing over every occurrence of `id`. -/
def contribAux (k : Nat) : Nat → List String → String → ℚ
  | _, [], _ => 0
  | r, x :: rest, id =>
      (if x = id then 1 / ((k : ℚ) + r) else 0) + contribAux k (r + 1) rest id

/-- `g` extended by `0` outside `ks` (the value function of a canonical map). -/
def extendF (g : String → ℚ) (ks : List String) (id : String) : ℚ :=
  if id ∈ ks then g id else 0

/-! ### src/core/hybrid_search.py -/

/-- The fixed German stopword set of `hybrid_search.GERMAN_STOPWORDS`. -/
def GERMAN_STOPWORDS : List String :=
  ["der", "die", "das", "den", "dem", "des", "ein", "eine", "einer", "eines",
   "und", "oder", "aber", "ist", "sind", "wird", "werden", "hat", "haben",
   "für", "von", "mit", "auf", "in", "zu", "an", "bei", "durch", "über",
   "um", "nach", "aus", "vor", "zwischen", "unter", "auch", "noch", "nur",
   "sich", "nicht", "mehr", "als", "wie", "da", "so", "wenn", "dann"]

/-- A word character of the regex `\w`: ASCII alphanumerics, the underscore,
and (modelling the Unicode word characters the German corpus uses) every
code point above 127. -/
def wordChar (c : Char) : Bool :=
  c.isAlphanum || c = '_' || decide (127 < c.val)

/-- Maximal runs of word characters, as produced by `re.findall(r'\w+', text)`;
`cur` is the current run, reversed. -/
def splitRunsAux : List Char → List Char → List (List Char)
  | [], cur => if cur.isEmpty then [] else [cur.reverse]
  | c :: rest, cur =>
      if wordChar c then splitRunsAux rest (c :: cur)
      else if cur.isEmpty then splitRunsAux rest []
      else cur.reverse :: splitRunsAux rest []

/-- `hybrid_search.tokenize_german`: lowercase, split on non-word boundaries,
keep alphanumeric tokens of length at least 2 that are not stopwords.
(`str.lower` is modelled per-character; the stopwords are already lowercase.) -/
def tokenize_german (text : String) : List String :=
  let lowered := text.toList.map Char.toLower
  let tokens := (splitRunsAux lowered []).map List.asString
  tokens.filter (fun t => decide (2 ≤ t.toList.length) && !(GERMAN_STOPWORDS.contains t))

/-- The state of `hybrid_search.BM25Index` (the `BM25Okapi` structure itself is
the external `rank_bm25` library; its `get_scores` is passed as a function). -/
structure BM25Index where
  doc_ids : List String
  is_built : Bool
deriving DecidableEq, Repr

/-- `BM25Index.search`: raises when the index is not built, returns `[]` for a
query that tokenizes to nothing, otherwise scores every document, sorts by
score descending (stable) and keeps `top_k`. -/
def BM25Index_search (idx : BM25Index) (getScores : List String → List ℚ)
    (query : String) (top_k : Nat) : Except String (List (String × ℚ)) :=
  if !idx.is_built then
    .error "BM25 index not built. Call build_index() first."
  else
    let query_tokens := tokenize_german query
    if query_tokens.isEmpty then .ok []
    else
      let scores := getScores query_tokens
      let scored_docs := idx.doc_ids.zip scores
      .ok ((sortDesc Prod.snd scored_docs).take top_k)

/-- Inner loop of `hybrid_search.reciprocal_rank_fusion`:
`for rank, (doc_id, _) in enumerate(results, start=1): fused_scores[doc_id] =
fused_scores.get(doc_id, 0.0) + (1.0 / (k + rank))`. -/
def rrfAddList (k : Nat) : Nat → List (String × ℚ) → List String → List (String × ℚ)
  | _, m, [] => m
  | rank, m, doc_id :: rest =>
      rrfAddList k (rank + 1) (updateScore m doc_id (1 / ((k : ℚ) + rank))) rest

/-- `hybrid_search.reciprocal_rank_fusion`: accumulate `1/(k+rank)` per list
into a dict, then sort the items by fused score descending (stable). -/
def reciprocal_rank_fusion (result_sets : List (List (String × ℚ))) (k : Nat) :
    List (String × ℚ) :=
  let fused_scores := result_sets.foldl
    (fun m results => rrfAddList k 1 m (results.map Prod.fst)) []
  sortDesc Prod.snd fused_scores

/-! ### src/scripts/deployment/search.py -/

/-- The payload of a Qdrant scored point, with the keys the code reads
(`payload.get(k)` with a falsy default is modelled by a total field whose
missing-key value is the default). -/
structure QPayload where
  text : String
  chunk_text : String
  source_path : String
  source : String
  page_start : Option Int
  page : Option Int
deriving DecidableEq, Repr

/-- A Qdrant `ScoredPoint` as the deployment code uses it: an id, a score and
a payload. -/
structure QPoint where
  id : String
  score : ℚ
  payload : QPayload
deriving DecidableEq, Repr

/-- `keep.setdefault(pid, r)`: keep the first-seen value for a key. -/
def setdefault : List (String × QPoint) → String → QPoint → List (String × QPoint)
  | [], id, r => [(id, r)]
  | (key, v) :: rest, id, r =>
      if key = id then (key, v) :: rest else (key, v) :: setdefault rest id r

/-- Inner loop of `search.rrf`: accumulate `1/(k+rank)` into `scores` and the
first-seen point into `keep`. -/
def rrfDeployAdd (k : Nat) :
    Nat → List (String × ℚ) × List (String × QPoint) → List QPoint →
    List (String × ℚ) × List (String × QPoint)
  | _, st, [] => st
  | rank, (scores, keep), r :: rest =>
      rrfDeployAdd k (rank + 1)
        (updateScore scores r.id (1 / ((k : ℚ) + rank)), setdefault keep r.id r) rest

/-- `search.rrf`: fuse several result lists, then return the kept (first-seen)
points sorted by fused score descending (stable). -/
def rrfDeploy (result_sets : List (List QPoint)) (k : Nat) : List QPoint :=
  let st := result_sets.foldl (fun st results => rrfDeployAdd k 1 st results) ([], [])
  sortDesc (fun r => lookupD st.1 r.id 0) (st.2.map Prod.snd)

/-- The error message of `search._ensure_dims_ok` for a model smaller than the
collection. -/
def embedDimMismatchMsg (model_dim qdim : Nat) : String :=
  "Embedding dim mismatch: model=" ++ toString model_dim ++ " < qdrant=" ++
  toString qdim ++ ". " ++ "Recreate the collection with the model's size or switch model."

/-- `search._ensure_dims_ok`: called on the query path (by `search_dense`);
raises when the collection is missing or when the model's effective dimension
is smaller than the collection's. -/
def ensure_dims_ok (collection_name url : String) (qdim : Option Nat)
    (model_dim : Nat) : Except String Unit :=
  match qdim with
  | none =>
      .error ("Qdrant collection '" ++ collection_name ++ "' not found at " ++ url ++ ".")
  | some q =>
      if model_dim < q then .error (embedDimMismatchMsg model_dim q) else .ok ()

/-! ### src/core/qa.py -/

/-- The payload keys `core/qa.py` reads, with its defaults: `get("source_path","")`,
`get("chunk_idx",-1)`, `get("text","")` are modelled by total fields whose
missing-key value is the default. -/
structure Payload where
  source_path : String
  chunk_idx : Int
  text : String
deriving DecidableEq, Repr

/-- `core/qa.Hit`. -/
structure Hit where
  text : String
  score : ℚ
  payload : Payload
deriving DecidableEq, Repr

/-- `Reranker._clip`: `txt[:1800] if len(txt) > 1800 else txt`. -/
def rerankClip (txt : String) : String := (txt.toList.take 1800).asString

/-- The candidate text the reranker scores: `h.text or h.payload.get("text","")`
(Python `or` falls through on the empty string). -/
def candText (h : Hit) : String := if h.text = "" then h.payload.text else h.text

/-- `Reranker.rerank`: pass-through when `len(hits) <= keep`; otherwise scores
every (query, clipped text) pair with the cross-encoder `modelScore` (the
external FlagReranker, batch-applied), blends the rerank score with the
original score as `w * s + (1 - w) * h.score`, and returns the top `keep`
by blended score descending (stable sort). -/
def Reranker_rerank (modelScore : String → String → ℚ) (w : ℚ) (query : String)
    (hits : List Hit) (keep : Nat) : List Hit :=
  if hits.length ≤ keep then hits
  else
    let texts := hits.map candText
    let scores := texts.map (fun t => modelScore query (rerankClip t))
    let merged := (hits.zip scores).map
      (fun hs => { text := hs.1.text, score := w * hs.2 + (1 - w) * hs.1.score,
                   payload := hs.1.payload : Hit })
    (sortDesc Hit.score merged).take keep

/-- The fusion key of `HybridRetriever.search`:
`payload.get("source_path","") + f"#{payload.get('chunk_idx',-1)}"`. -/
def hitKey (h : Hit) : String := h.payload.source_path ++ "#" ++ toString h.payload.chunk_idx

/-- The local `rrf` of `HybridRetriever.search`: accumulate `1.0/(60.0+rank)`
per key into a dict (ranks start at 1). -/
def hybridRrfGo : Nat → List (String × ℚ) → List Hit → List (String × ℚ)
  | _, m, [] => m
  | rank, m, h :: rest =>
      hybridRrfGo (rank + 1) (updateScore m (hitKey h) (1 / ((60 : ℚ) + rank))) rest

/-- `score_map = rrf(d)` of `HybridRetriever.search`. -/
def hybridRrf (hits : List Hit) : List (String × ℚ) := hybridRrfGo 1 [] hits

/-- `for key, score in sparse_scores.items(): score_map[key] =
score_map.get(key, 0.0) + score`. -/
def addScores : List (String × ℚ) → List (String × ℚ) → List (String × ℚ)
  | m, [] => m
  | m, (key, score) :: rest => addScores (updateScore m key score) rest

/-- `HybridRetriever.search`: RRF-fuse the dense and sparse lists by payload
key, rebuild the dense hits with their fused scores, sort by fused score
descending (stable) and keep `top_k`. -/
def HybridRetriever_search (d s : List Hit) (top_k : Nat) : List Hit :=
  let score_map := hybridRrf d
  let score_map := if s.isEmpty then score_map else addScores score_map (hybridRrf s)
  let merged := d.map
    (fun h => { text := h.text, score := lookupD score_map (hitKey h) h.score,
                payload := h.payload : Hit })
  (sortDesc Hit.score merged).take top_k

/-- `SparseRetriever.search`: the TF-IDF matrix `X` is `None` exactly when the
corpus is empty, and then every search returns `[]`; otherwise the external
scikit-learn ranking (abstracted as `rank`) produces the hits. -/
def SparseRetriever_search (corpus : List String) (rank : String → Nat → List Hit)
    (query : String) (top_k : Nat) : List Hit :=
  if corpus.isEmpty then [] else rank query top_k

/-- Python `s.strip()`: drop whitespace from both ends. -/
def pyStrip (s : String) : String :=
  (((s.toList.dropWhile Char.isWhitespace).reverse.dropWhile Char.isWhitespace).reverse).asString

/-- `qa._should_skip_rerank`: `re.match(r'^\d{8}$', query.strip())` — the
stripped query is exactly eight digits.  (`src/src/core/qa.py` uses
`re.fullmatch(r"\d{8}", query.strip())`, the same predicate.) -/
def should_skip_rerank (query : String) : Bool :=
  let t := (pyStrip query).toList
  decide (t.length = 8) && t.all Char.isDigit

/-- The knobs of `core/config.AppConfig` that `core/qa.retrieve_candidates`
uses (`final_k` is in the config but this version never reads it). -/
structure Config1 where
  use_hybrid : Bool
  use_rerank : Bool
  topk_candidate : Nat
  final_k : Nat
  rerank_keep : Nat
  rerank_weight : ℚ
deriving DecidableEq, Repr

/-- `core/qa.retrieve_candidates`: hybrid search over the dense store reply
(`denseSearch`, the external Qdrant call) and the sparse retriever — which is
constructed as `SparseRetriever()` with an empty corpus, so its search always
returns `[]` — then, unless reranking is disabled, the hit list is empty or
the query is a deterministic-ID lookup, backfill missing hit text from the
payload and rerank.  No `final_k` cut is applied here. -/
def retrieve_candidates1 (cfg : Config1) (denseSearch : String → Nat → List Hit)
    (sparseRank : String → Nat → List Hit) (modelScore : String → String → ℚ)
    (query : String) : List Hit :=
  let d := denseSearch query cfg.topk_candidate
  let s := if cfg.use_hybrid then SparseRetriever_search [] sparseRank query cfg.topk_candidate
           else []
  let hits := HybridRetriever_search d s cfg.topk_candidate
  if cfg.use_rerank && !hits.isEmpty && !should_skip_rerank query then
    let hits2 := hits.map
      (fun h => if h.text = "" then { h with text := h.payload.text } else h)
    Reranker_rerank modelScore cfg.rerank_weight query hits2 cfg.rerank_keep
  else hits

/-! ### src/src/core/qa.py -/

/-- Python `a or b` on strings: the empty string is falsy. -/
def pyOrS (a b : String) : String := if a = "" then b else a

/-- Python `a or b` on optional ints: `None` and `0` are falsy. -/
def pyOrOptInt (a b : Option Int) : Option Int :=
  match a with
  | some v => if v = 0 then b else some v
  | none => b

/-- `src/src/core/qa.Hit`. -/
structure Hit2 where
  text : String
  score : ℚ
  payload : QPayload
  page : Option Int
  source : String
deriving DecidableEq, Repr

/-- `qa._sp_to_hit`: build a `Hit` from a scored point; the text is the first
non-empty of `payload.text`/`payload.chunk_text`, cut to 2000 characters
(`float(sp.score or 0.0)` is the identity on the rational score model). -/
def sp_to_hit (sp : QPoint) : Hit2 :=
  { text := ((pyOrS sp.payload.text (pyOrS sp.payload.chunk_text "")).toList.take 2000).asString
    score := sp.score
    payload := sp.payload
    page := pyOrOptInt sp.payload.page_start sp.payload.page
    source := pyOrS sp.payload.source_path (pyOrS sp.payload.source "") }

/-- The knobs of `src/src/core/config` that `retrieve_candidates` uses
(`cfg.top_k` is a property aliasing `final_k`). -/
structure Config2 where
  use_hybrid : Bool
  force_german_retrieval : Bool
  dual_query : Bool
  use_rerank : Bool
  final_k : Nat
  rerank_keep : Nat
  rerank_weight : ℚ
deriving DecidableEq, Repr

/-- `src/src/core/qa.retrieve_candidates` before its final cut.  External
collaborators are parameters: `det` is best-effort language detection
(`none` = the `langdetect` call raised, handled by falling back to "de"),
`translate` the Ollama translation, `searchH`/`searchD` the hybrid/dense
store calls, `has_reranker` whether FlagEmbedding imported, `rerank_ok`
whether the reranking `try` block succeeds (on failure the list is kept),
`modelScore` the cross-encoder.  `int(limit or cfg.top_k)` treats both
`None` and `0` as absent. -/
def retrieve_candidates2_pre (cfg : Config2) (det : String → Option String)
    (translate : String → String) (searchH searchD : String → Nat → List QPoint)
    (has_reranker rerank_ok : Bool) (modelScore : String → String → ℚ)
    (user_text : String) (limit : Option Nat) : List Hit2 :=
  let lim := match limit with
    | some n => if n = 0 then cfg.final_k else n
    | none => cfg.final_k
  let lang := (det user_text).getD "de"
  let fn := if cfg.use_hybrid then searchH else searchD
  let res :=
    if !cfg.force_german_retrieval && !cfg.dual_query then fn user_text lim
    else if cfg.force_german_retrieval && !cfg.dual_query then
      fn (if lang = "de" then user_text else translate user_text) lim
    else
      let res_en := fn user_text lim
      let de_q := if lang = "de" then user_text else translate user_text
      let res_de := fn de_q lim
      (rrfDeploy [res_en, res_de] 60).take lim
  let hits := res.map sp_to_hit
  if cfg.use_rerank && has_reranker && !hits.isEmpty && !should_skip_rerank user_text then
    if rerank_ok then
      let pairs := hits.map
        (fun h => (user_text, ((pyOrS h.text h.payload.text).toList.take 1800).asString))
      let scores := pairs.map (fun p => modelScore p.1 p.2)
      let blended := (hits.zip scores).map
        (fun hs => (cfg.rerank_weight * hs.2 + (1 - cfg.rerank_weight) * hs.1.score, hs.1))
      ((sortDesc Prod.fst blended).take cfg.rerank_keep).map Prod.snd
    else hits
  else hits

/-- `src/src/core/qa.retrieve_candidates`: the pipeline above followed by the
final cut `hits[: int(cfg.final_k)]`. -/
def retrieve_candidates2 (cfg : Config2) (det : String → Option String)
    (translate : String → String) (searchH searchD : String → Nat → List QPoint)
    (has_reranker rerank_ok : Bool) (modelScore : String → String → ℚ)
    (user_text : String) (limit : Option Nat) : List Hit2 :=
  (retrieve_candidates2_pre cfg det translate searchH searchD has_reranker rerank_ok
    modelScore user_text limit).take cfg.final_k

/-! ### src/src/core/index.py — PageAwareChunker
(The `src/core/index.py` copy has the identical accumulation loop; its `flush`
differs only in not guarding the empty page accumulator.)  Page text is
modelled as `List Char` (Python `str`), sizes as `Nat`. -/

/-- `core/domain.DocumentPage` as the chunker reads it. -/
structure DocumentPage where
  page_number : Int
  text : List Char
  source_path : String
deriving DecidableEq, Repr

/-- `core/domain.DocumentChunk` as the chunker builds it. -/
structure DocumentChunk where
  chunk_index : Nat
  text : List Char
  source_path : Option String
  page_start : Option Int
  page_end : Option Int
deriving DecidableEq, Repr

/-- The chunker's mutable state (`text_acc`, `page_acc`, `chunks`, `idx`). -/
structure ChunkerState where
  text_acc : List (List Char)
  page_acc : List Int
  chunks : List DocumentChunk
  idx : Nat
deriving DecidableEq, Repr

/-- `sum(len(x) for x in text_acc)`. -/
def accLen (acc : List (List Char)) : Nat := (acc.map List.length).sum

/-- The tail kept as the seed of the next chunk:
`text[-overlap:] if overlap > 0 else ""`. -/
def keepTail (overlap : Nat) (text : List Char) : List Char :=
  if 0 < overlap then text.drop (text.length - overlap) else []

/-- The chunker's `flush()`: emit the accumulated text as a chunk (skipped when
the accumulator list is empty), then seed the next accumulator with the
overlap tail (`text_acc = [keep] if keep else []`,
`page_acc = [page_end] if (overlap > 0 and page_end is not None) else []`). -/
def chunkerFlush (overlap : Nat) (src : Option String) (st : ChunkerState) : ChunkerState :=
  if st.text_acc.isEmpty then st
  else
    let text := st.text_acc.flatten
    let page_start := st.page_acc.head?
    let page_end := st.page_acc.getLast?
    let c : DocumentChunk :=
      { chunk_index := st.idx, text := text, source_path := src,
        page_start := page_start, page_end := page_end }
    let keep := keepTail overlap text
    { text_acc := if keep.isEmpty then [] else [keep]
      page_acc := if 0 < overlap then (match page_end with | some pe => [pe] | none => []) else []
      chunks := st.chunks ++ [c]
      idx := st.idx + 1 }

/-- One page's `while cursor < len(t)` loop.  `fuel` bounds the iterations;
with `0 < size` every iteration consumes at least one character, so fuel
`t.length` runs the loop to completion exactly as the source does. -/
def pageLoopAux (size overlap : Nat) (src : Option String) (pno : Int) :
    Nat → List Char → ChunkerState → ChunkerState
  | 0, _, st => st
  | fuel + 1, t, st =>
    if t.isEmpty then st
    else
      let space_left : Int := (size : Int) - (accLen st.text_acc : Int)
      let st1 := if space_left ≤ 0 then chunkerFlush overlap src st else st
      let sl : Nat := if space_left ≤ 0 then size else space_left.toNat
      let tk := t.take sl
      let st2 : ChunkerState :=
        { st1 with
          text_acc := st1.text_acc ++ [tk]
          page_acc := if pno ∈ st1.page_acc then st1.page_acc else st1.page_acc ++ [pno] }
      pageLoopAux size overlap src pno fuel (t.drop sl) st2

/-- `PageAwareChunker.split`: run the accumulation loop over the non-empty
pages, then flush the final partial chunk. -/
def PageAwareChunker_split (size overlap : Nat) (pages : List DocumentPage) :
    List DocumentChunk :=
  let src := pages.head?.map DocumentPage.source_path
  let stF := pages.foldl
    (fun st p =>
      if p.text.isEmpty then st
      else pageLoopAux size overlap src p.page_number p.text.length p.text st)
    { text_acc := [], page_acc := [], chunks := [], idx := 0 }
  (chunkerFlush overlap src stF).chunks

/-! ### Indexer identifiers and collection bootstrap (src/src/core/index.py) -/

/-- The name string `f"{doc_hash}|{chunk_idx}"` hashed by `uuid5`. -/
def pointName (doc_hash : String) (chunk_idx : Int) : String :=
  doc_hash ++ "|" ++ toString chunk_idx

/-- `Indexer._point_id`: `str(uuid5(NAMESPACE_URL, f"{doc_hash}|{chunk_idx}"))`.
`uuid5` is the external stdlib name-based (SHA-1) UUID, a fixed pure function
of the name string, abstracted as the parameter `uuid5`. -/
def point_id (uuid5 : String → String) (doc_hash : String) (chunk_idx : Int) : String :=
  uuid5 (pointName doc_hash chunk_idx)

/-- The configuration an `Indexer` reads for collection bootstrap. -/
structure IndexCfg where
  embed_dim : Nat
  qdrant_collection : String
deriving DecidableEq, Repr

/-- A Qdrant collection: its configured vector dimension and its points. -/
structure Collection where
  dim : Nat
  points : List (String × String)
deriving DecidableEq, Repr

/-- The vector store: at most one collection (the configured one). -/
structure Store where
  coll : Option Collection
deriving DecidableEq, Repr

/-- The write operations the indexer can issue against the store. -/
inductive StoreOp where
  | deleteCollection : StoreOp
  | createCollection : Nat → StoreOp
  | upsert : List (String × String) → StoreOp
deriving DecidableEq, Repr

/-- `Indexer.effective_dim = min(int(getattr(cfg, "embed_dim", raw_dim)), raw_dim)`. -/
def effectiveDim (cfg : IndexCfg) (raw_dim : Nat) : Nat := min cfg.embed_dim raw_dim

/-- The append-mode mismatch message of `Indexer._ensure_collection`, naming
the collection's dimension, the effective dimension and the model's raw
dimension. -/
def collectionDimMismatchMsg (existing_dim dim raw_dim : Nat) : String :=
  "Qdrant collection dim (" ++ toString existing_dim ++ ") != effective embed dim (" ++
  toString dim ++ "). " ++ "Either recreate with --mode fresh or set CFG.embed_dim=" ++
  toString existing_dim ++ " " ++ "(current model raw_dim=" ++ toString raw_dim ++ ")."

/-- `Indexer._ensure_collection`: create the collection when missing; in fresh
mode drop and recreate it; in append mode validate the existing dimension
against `dim` and raise (before any write) on mismatch.  Returns the result,
the store afterwards, and the operations issued. -/
def ensure_collection (fresh : Bool) (dim raw_dim : Nat) (st : Store) :
    Except String Unit × Store × List StoreOp :=
  match st.coll with
  | none =>
      ((.ok ()), { coll := some { dim := dim, points := [] } },
        (if fresh then [StoreOp.deleteCollection] else []) ++ [StoreOp.createCollection dim])
  | some c =>
      if fresh then
        ((.ok ()), { coll := some { dim := dim, points := [] } },
          [StoreOp.deleteCollection, StoreOp.createCollection dim])
      else if c.dim ≠ dim then
        ((.error (collectionDimMismatchMsg c.dim dim raw_dim)), st, [])
      else ((.ok ()), st, [])

/-- `Indexer.__init__` (collection-bootstrap part): read the model's raw
dimension, compute `effective_dim = min(cfg.embed_dim, raw_dim)` — without
any smaller-than-configured check — and run `_ensure_collection`. -/
def indexer_init (cfg : IndexCfg) (raw_dim : Nat) (fresh : Bool) (st : Store) :
    Except String Unit × Store × List StoreOp :=
  ensure_collection fresh (effectiveDim cfg raw_dim) raw_dim st

/-! ### Further spec-side definitions used by the theorems -/

/-- A default point (only used as the impossible fallback of `Option.getD`). -/
def defaultQPoint : QPoint :=
  { id := "", score := 0,
    payload := { text := "", chunk_text := "", source_path := "", source := "",
                 page_start := none, page := none } }

/-- The value function of the canonical `keep` dict: inside `ks` the old value,
outside it the first element of `l` carrying the id. -/
def extendW (w : String → QPoint) (ks : List String) (l : List QPoint) (id : String) :
    QPoint :=
  if id ∈ ks then w id else (l.find? (fun p => p.id = id)).getD defaultQPoint

/-- The id lists of a family of point lists. -/
def qIds (rs : List (List QPoint)) : List (List String) :=
  rs.map fun l => l.map QPoint.id

/-- Spec side: the first-seen representative of every id, in first-seen order. -/
def firstSeenReps (rs : List (List QPoint)) : List QPoint :=
  (firstSeen (qIds rs)).map
    fun id => (rs.flatten.find? (fun p => p.id = id)).getD defaultQPoint

/-- Spec side for `HybridRetriever.search`: the fused score of a payload key is
the sum of the rank contributions (`1/(60+rank)`, every occurrence) it earns
in the dense and in the sparse list. -/
def fusedKeyScore (d s : List Hit) (key : String) : ℚ :=
  contribAux 60 1 (d.map hitKey) key + contribAux 60 1 (s.map hitKey) key

/-- A point with a given id (concrete test input). -/
def qp (id : String) : QPoint := { defaultQPoint with id := id }

/-- The ranked lists of spec section 8: `A = [x, y, z]`, `B = [y, x, w]`. -/
def rrfExampleSets : List (List (String × ℚ)) :=
  [[("x", 0), ("y", 0), ("z", 0)], [("y", 0), ("x", 0), ("w", 0)]]

/-- The same example as scored points. -/
def rrfExamplePoints : List (List QPoint) :=
  [[qp "x", qp "y", qp "z"], [qp "y", qp "x", qp "w"]]

/-- A concrete payload (test input). -/
def examplePayload : Payload := { source_path := "p", chunk_idx := 0, text := "t" }

/-- Concrete hits (test inputs). -/
def hitA : Hit := { text := "a", score := 0, payload := examplePayload }

def hitB : Hit := { text := "b", score := 0, payload := examplePayload }

/-- A small configuration for the `core/qa.py` pipeline (test input):
hybrid and reranking off, wide candidate pool, `final_k = 1`. -/
def smallConfig1 : Config1 :=
  { use_hybrid := false, use_rerank := false, topk_candidate := 3, final_k := 1,
    rerank_keep := 2, rerank_weight := 0 }

/-- A small configuration for the `src/src/core/qa.py` pipeline (test input). -/
def smallConfig2 : Config2 :=
  { use_hybrid := false, force_german_retrieval := false, dual_query := false,
    use_rerank := false, final_k := 1, rerank_keep := 2, rerank_weight := 0 }

/-- Chunk `c2` is seeded by chunk `c`: the overlap tail of `c` is an initial
segment of `c2`'s text. -/
def Seeded (overlap : Nat) (c c2 : DocumentChunk) : Prop :=
  keepTail overlap c.text <+: c2.text

/-! ### Lemmas about the stable descending sort -/

theorem mem_insertDesc {α : Type} (f : α → ℚ) (x : α) (l : List α) (a : α) :
    a ∈ insertDesc f x l ↔ a = x ∨ a ∈ l := by
  induction l with
  | nil => simp [insertDesc]
  | cons y rest ih =>
      by_cases h : f y ≤ f x
      · simp [insertDesc, h]
      · simp [insertDesc, h, ih]
        tauto

theorem length_insertDesc {α : Type} (f : α → ℚ) (x : α) (l : List α) :
    (insertDesc f x l).length = l.length + 1 := by
  induction l with
  | nil => simp [insertDesc]
  | cons y rest ih =>
      by_cases h : f y ≤ f x
      · simp [insertDesc, h]
      · simp [insertDesc, h, ih]

theorem perm_insertDesc {α : Type} (f : α → ℚ) (x : α) (l : List α) :
    List.Perm (insertDesc f x l) (x :: l) := by
  induction l with
  | nil => simp [insertDesc]
  | cons y rest ih =>
      by_cases h : f y ≤ f x
      · simp [insertDesc, h]
      · simpa [insertDesc, h] using (ih.cons y).trans (List.Perm.swap x y rest)

theorem perm_sortDesc {α : Type} (f : α → ℚ) (l : List α) :
    List.Perm (sortDesc f l) l := by
  induction l with
  | nil => simp [sortDesc]
  | cons x rest ih =>
      exact (perm_insertDesc f x (sortDesc f rest)).trans (ih.cons x)

theorem length_sortDesc {α : Type} (f : α → ℚ) (l : List α) :
    (sortDesc f l).length = l.length := (perm_sortDesc f l).length_eq

theorem mem_sortDesc {α : Type} (f : α → ℚ) (l : List α) (a : α) :
    a ∈ sortDesc f l ↔ a ∈ l := (perm_sortDesc f l).mem_iff

theorem pairwise_insertDesc {α : Type} (f : α → ℚ) (Q : α → α → Prop) (x : α)
    (l : List α) (hl : l.Pairwise (rankedBy f Q)) (hx : ∀ b ∈ l, Q x b) :
    (insertDesc f x l).Pairwise (rankedBy f Q) := by
  induction l with
  | nil => simp [insertDesc, List.Pairwise]
  | cons y rest ih =>
      rw [List.pairwise_cons] at hl
      obtain ⟨hy, hrest⟩ := hl
      by_cases h : f y ≤ f x
      · rw [insertDesc, if_pos h]
        refine List.Pairwise.cons ?_ (List.Pairwise.cons hy hrest)
        intro b hb
        rcases List.mem_cons.mp hb with hb1 | hb1
        · subst hb1
          rcases lt_or_eq_of_le h with hlt | heq
          · exact Or.inl hlt
          · exact Or.inr ⟨heq.symm, hx b (List.mem_cons_self b rest)⟩
        · rcases hy b hb1 with hlt | ⟨heq, _⟩
          · exact Or.inl (lt_of_lt_of_le hlt h)
          · rcases lt_or_eq_of_le h with hlt2 | heq2
            · exact Or.inl (heq ▸ hlt2)
            · exact Or.inr ⟨heq2.symm.trans heq, hx b (List.mem_cons_of_mem y hb1)⟩
      · rw [insertDesc, if_neg h]
        push_neg at h
        refine List.Pairwise.cons ?_ (ih hrest (fun b hb => hx b (List.mem_cons_of_mem y hb)))
        intro b hb
        rcases (mem_insertDesc f x rest b).mp hb with hb1 | hb1
        · subst hb1
          exact Or.inl h
        · exact hy b hb1

theorem pairwise_sortDesc {α : Type} (f : α → ℚ) (Q : α → α → Prop) (l : List α)
    (hl : l.Pairwise Q) : (sortDesc f l).Pairwise (rankedBy f Q) := by
  induction l with
  | nil => simp [sortDesc, List.Pairwise]
  | cons x rest ih =>
      rw [List.pairwise_cons] at hl
      refine pairwise_insertDesc f Q x (sortDesc f rest) (ih hl.2) ?_
      intro b hb
      exact hl.1 b ((mem_sortDesc f rest b).mp hb)

theorem sortDesc_sorted {α : Type} (f : α → ℚ) (l : List α) :
    (sortDesc f l).Pairwise (fun a b => f b ≤ f a) := by
  have h := pairwise_sortDesc f (fun _ _ => True) l
    (List.pairwise_iff_forall_sublist.mpr (fun _ => trivial))
  refine h.imp ?_
  intro a b hab
  rcases hab with hlt | ⟨heq, _⟩
  · exact le_of_lt hlt
  · exact le_of_eq heq.symm

/-! ### Lemmas: first-seen id accumulation -/

theorem insertIds_cons (acc : List String) (x : String) (l : List String) :
    insertIds acc (x :: l) = insertIds (if x ∈ acc then acc else acc ++ [x]) l := rfl

theorem mem_insertIds (l : List String) (acc : List String) (id : String) :
    id ∈ insertIds acc l ↔ id ∈ acc ∨ id ∈ l := by
  induction l generalizing acc with
  | nil => simp [insertIds]
  | cons x rest ih =>
      rw [insertIds_cons, ih]
      by_cases hx : x ∈ acc
      · simp only [if_pos hx]
        constructor
        · rintro (h | h)
          · exact Or.inl h
          · exact Or.inr (List.mem_cons_of_mem x h)
        · rintro (h | h)
          · exact Or.inl h
          · rcases List.mem_cons.mp h with h1 | h1
            · exact Or.inl (h1 ▸ hx)
            · exact Or.inr h1
      · simp only [if_neg hx, List.mem_append, List.mem_singleton, List.mem_cons]
        tauto

theorem insertIds_nodup (l : List String) (acc : List String) (hnd : acc.Nodup) :
    (insertIds acc l).Nodup := by
  induction l generalizing acc with
  | nil => exact hnd
  | cons x rest ih =>
      rw [insertIds_cons]
      by_cases hx : x ∈ acc
      · rw [if_pos hx]; exact ih acc hnd
      · rw [if_neg hx]
        refine ih (acc ++ [x]) ?_
        simpa [List.nodup_append] using ⟨hnd, hx⟩

theorem contribAux_not_mem (k : Nat) (l : List String) (id : String) (h : id ∉ l) :
    ∀ r, contribAux k r l id = 0 := by
  induction l with
  | nil => intro r; rfl
  | cons x rest ih =>
      intro r
      have hx : x ≠ id := fun he => h (he ▸ List.mem_cons_self x rest)
      have hr : id ∉ rest := fun hm => h (List.mem_cons_of_mem x hm)
      simp [contribAux, hx, ih hr]

theorem contribAux_nodup_spec (k : Nat) (l : List String) (id : String) (hnd : l.Nodup) :
    ∀ r, contribAux k r l id =
      (match rank0Of l id with
       | some i => 1 / ((k : ℚ) + (r + i))
       | none => 0) := by
  induction l with
  | nil => intro r; rfl
  | cons x rest ih =>
      intro r
      rw [List.nodup_cons] at hnd
      by_cases hx : x = id
      · subst hx
        have h0 : contribAux k (r + 1) rest x = 0 := contribAux_not_mem k rest x hnd.1 (r + 1)
        simp [contribAux, rank0Of, h0]
      · have hrec := ih hnd.2 (r + 1)
        simp only [contribAux, rank0Of, if_neg hx, hrec]
        cases h : rank0Of rest id with
        | none => simp
        | some i =>
            simp only [Option.map_some']
            push_cast
            ring_nf

theorem contribAux_eq_contribution (k : Nat) (l : List String) (id : String)
    (hnd : l.Nodup) : contribAux k 1 l id = rrfContribution k l id := by
  rw [contribAux_nodup_spec k l id hnd 1, rrfContribution]
  cases h : rank0Of l id with
  | none => rfl
  | some i =>
      push_cast
      ring_nf

/-! ### Lemmas: canonical form of the fused-score dict -/

theorem extendF_mem (g : String → ℚ) (ks : List String) (id : String) (h : id ∈ ks) :
    extendF g ks id = g id := by simp [extendF, h]

theorem extendF_not_mem (g : String → ℚ) (ks : List String) (id : String) (h : id ∉ ks) :
    extendF g ks id = 0 := by simp [extendF, h]

theorem updateScore_canon (ks : List String) (g : String → ℚ) (x : String) (c : ℚ)
    (hnd : ks.Nodup) :
    updateScore (ks.map fun id => (id, g id)) x c
      = (if x ∈ ks then ks else ks ++ [x]).map
          fun id => (id, if id = x then extendF g ks x + c else g id) := by
  induction ks with
  | nil => simp [updateScore, extendF]
  | cons y rest ih =>
      rw [List.nodup_cons] at hnd
      by_cases hyx : y = x
      · subst hyx
        have hxin : y ∈ y :: rest := List.mem_cons_self y rest
        rw [if_pos hxin, List.map_cons, List.map_cons, updateScore, if_pos rfl,
          if_pos rfl, extendF_mem g (y :: rest) y hxin]
        congr 1
        refine (List.map_congr_left ?_).symm
        intro id hid
        have hne : ¬ (id = y) := fun he => hnd.1 (he ▸ hid)
        rw [if_neg hne]
      · have hext : extendF g (y :: rest) x = extendF g rest x := by
          by_cases hx : x ∈ rest
          · rw [extendF_mem g rest x hx, extendF_mem g (y :: rest) x (List.mem_cons_of_mem y hx)]
          · rw [extendF_not_mem g rest x hx, extendF_not_mem g (y :: rest) x ?_]
            intro hmem
            rcases List.mem_cons.mp hmem with h1 | h1
            · exact hyx h1.symm
            · exact hx h1
        rw [List.map_cons, updateScore, if_neg hyx, ih hnd.2]
        by_cases hx : x ∈ rest
        · have hx2 : x ∈ y :: rest := List.mem_cons_of_mem y hx
          rw [if_pos hx, if_pos hx2, List.map_cons, if_neg hyx, hext]
        · have hx2 : x ∉ y :: rest := by
            intro hmem
            rcases List.mem_cons.mp hmem with h1 | h1
            · exact hyx h1.symm
            · exact hx h1
          rw [if_neg hx, if_neg hx2, List.cons_append, List.map_cons, if_neg hyx, hext]

theorem extendF_update (g : String → ℚ) (ks : List String) (x : String) (c : ℚ)
    (id : String) :
    extendF (fun j => if j = x then extendF g ks x + c else g j)
        (if x ∈ ks then ks else ks ++ [x]) id
      = extendF g ks id + (if x = id then c else 0) := by
  by_cases hid : id = x
  · subst hid
    have hin : id ∈ (if id ∈ ks then ks else ks ++ [id]) := by
      by_cases h : id ∈ ks
      · rw [if_pos h]; exact h
      · rw [if_neg h]; simp
    rw [extendF_mem _ _ _ hin, if_pos rfl, if_pos rfl]
  · have hne : ¬ (x = id) := fun he => hid he.symm
    rw [if_neg hne, add_zero]
    by_cases h : id ∈ ks
    · have hin : id ∈ (if x ∈ ks then ks else ks ++ [x]) := by
        by_cases hxk : x ∈ ks
        · rw [if_pos hxk]; exact h
        · rw [if_neg hxk]; exact List.mem_append_left _ h
      rw [extendF_mem _ _ _ hin, if_neg hid, extendF_mem g ks id h]
    · have hout : id ∉ (if x ∈ ks then ks else ks ++ [x]) := by
        by_cases hxk : x ∈ ks
        · rw [if_pos hxk]; exact h
        · rw [if_neg hxk]
          intro hmem
          rcases List.mem_append.mp hmem with h1 | h1
          · exact h h1
          · exact hid (List.mem_singleton.mp h1)
      rw [extendF_not_mem _ _ _ hout, extendF_not_mem g ks id h]

theorem rrfAddList_canon (k : Nat) (l : List String) :
    ∀ (r : Nat) (ks : List String) (g : String → ℚ), ks.Nodup →
    rrfAddList k r (ks.map fun id => (id, g id)) l
      = (insertIds ks l).map fun id => (id, extendF g ks id + contribAux k r l id) := by
  induction l with
  | nil =>
      intro r ks g _
      simp only [rrfAddList, insertIds]
      refine List.map_congr_left ?_
      intro id hid
      rw [extendF_mem g ks id hid, contribAux, add_zero]
  | cons x rest ih =>
      intro r ks g hnd
      rw [rrfAddList, updateScore_canon ks g x (1 / ((k : ℚ) + r)) hnd]
      have hnd2 : (if x ∈ ks then ks else ks ++ [x]).Nodup := by
        by_cases hx : x ∈ ks
        · rw [if_pos hx]; exact hnd
        · rw [if_neg hx]; simpa [List.nodup_append] using ⟨hnd, hx⟩
      rw [ih (r + 1) _ _ hnd2, insertIds_cons]
      refine List.map_congr_left ?_
      intro id _
      have hupd := extendF_update g ks x (1 / ((k : ℚ) + r)) id
      rw [hupd, contribAux]
      ring_nf

theorem rrfFold_canon (k : Nat) (rs : List (List String)) :
    ∀ (ks : List String) (g : String → ℚ), ks.Nodup →
    rs.foldl (fun m l => rrfAddList k 1 m l) (ks.map fun id => (id, g id))
      = (rs.foldl insertIds ks).map fun id =>
          (id, extendF g ks id + (rs.map (fun l => contribAux k 1 l id)).sum) := by
  induction rs with
  | nil =>
      intro ks g _
      simp only [List.foldl_nil, List.map_nil, List.sum_nil]
      refine List.map_congr_left ?_
      intro id hid
      rw [extendF_mem g ks id hid, add_zero]
  | cons l rest ih =>
      intro ks g hnd
      rw [List.foldl_cons, rrfAddList_canon k l 1 ks g hnd,
        ih (insertIds ks l) _ (insertIds_nodup l ks hnd), List.foldl_cons]
      refine List.map_congr_left ?_
      intro id _
      have hpt : extendF (fun j => extendF g ks j + contribAux k 1 l j) (insertIds ks l) id
          = extendF g ks id + contribAux k 1 l id := by
        by_cases h : id ∈ insertIds ks l
        · rw [extendF_mem _ _ _ h]
        · have hks : id ∉ ks := fun hm => h ((mem_insertIds l ks id).mpr (Or.inl hm))
          have hl : id ∉ l := fun hm => h ((mem_insertIds l ks id).mpr (Or.inr hm))
          rw [extendF_not_mem _ _ _ h, extendF_not_mem g ks id hks,
            contribAux_not_mem k l id hl 1, add_zero]
      rw [hpt, List.map_cons, List.sum_cons]
      ring_nf

/-- Canonical form of `reciprocal_rank_fusion`: the fused dict lists every id
in first-seen order with its accumulated score, then the stable sort runs. -/
theorem reciprocal_rank_fusion_canon (rs : List (List (String × ℚ))) (k : Nat) :
    reciprocal_rank_fusion rs k
      = sortDesc Prod.snd ((firstSeen (rs.map fun l => l.map Prod.fst)).map
          fun id => (id, ((rs.map fun l => contribAux k 1 (l.map Prod.fst) id).sum))) := by
  unfold reciprocal_rank_fusion firstSeen
  have h1 : rs.foldl (fun m results => rrfAddList k 1 m (results.map Prod.fst)) []
      = (rs.map fun l => l.map Prod.fst).foldl (fun m l => rrfAddList k 1 m l) [] := by
    rw [List.foldl_map]
  have h2 : rs.foldl (fun acc l => insertIds acc (l.map Prod.fst)) ([] : List String)
      = (rs.map fun l => l.map Prod.fst).foldl insertIds [] := by
    rw [List.foldl_map]
  rw [h1]
  have h3 := rrfFold_canon k (rs.map fun l => l.map Prod.fst) [] (fun _ => 0) List.nodup_nil
  simp only [List.map_nil] at h3
  rw [h3]
  refine congrArg (sortDesc Prod.snd) ?_
  refine List.map_congr_left ?_
  intro id _
  rw [extendF_not_mem _ _ _ (List.not_mem_nil id), zero_add, List.map_map]
  rfl

/-- Under per-list distinctness the accumulated score is the spec score. -/
theorem sum_contribAux_eq_spec (k : Nat) (rs : List (List String)) (id : String)
    (hnd : ∀ l ∈ rs, l.Nodup) :
    (rs.map fun l => contribAux k 1 l id).sum = rrfSpecScore rs k id := by
  unfold rrfSpecScore
  congr 1
  refine List.map_congr_left ?_
  intro l hl
  exact contribAux_eq_contribution k l id (hnd l hl)

theorem rank0Of_mem (l : List String) (id : String) (h : id ∈ l) :
    ∃ i, rank0Of l id = some i := by
  induction l with
  | nil => cases h
  | cons x rest ih =>
      by_cases hx : x = id
      · exact ⟨0, by simp [rank0Of, hx]⟩
      · have : id ∈ rest := by
          rcases List.mem_cons.mp h with h1 | h1
          · exact absurd h1.symm hx
          · exact h1
        obtain ⟨i, hi⟩ := ih this
        exact ⟨i + 1, by simp [rank0Of, hx, hi]⟩

theorem pairwise_seenlt (l : List String) (hnd : l.Nodup) : l.Pairwise (seenlt l) := by
  induction l with
  | nil => exact List.Pairwise.nil
  | cons x rest ih =>
      rw [List.nodup_cons] at hnd
      refine List.Pairwise.cons ?_ ?_
      · intro y hy
        have hxy : ¬ (x = y) := fun he => hnd.1 (he ▸ hy)
        obtain ⟨i, hi⟩ := rank0Of_mem rest y hy
        exact ⟨0, i + 1, by simp [rank0Of], by simp [rank0Of, hxy, hi], Nat.succ_pos i⟩
      · refine (ih hnd.2).imp_of_mem ?_
        intro a b ha hb hab
        obtain ⟨i, j, hi, hj, hij⟩ := hab
        have hxa : ¬ (x = a) := fun he => hnd.1 (he ▸ ha)
        have hxb : ¬ (x = b) := fun he => hnd.1 (he ▸ hb)
        exact ⟨i + 1, j + 1, by simp [rank0Of, hxa, hi], by simp [rank0Of, hxb, hj],
          by omega⟩

theorem firstSeen_nodup (rs : List (List String)) : (firstSeen rs).Nodup := by
  unfold firstSeen
  suffices h : ∀ acc : List String, acc.Nodup → (rs.foldl insertIds acc).Nodup by
    exact h [] List.nodup_nil
  induction rs with
  | nil => intro acc h; exact h
  | cons l rest ih =>
      intro acc h
      exact ih (insertIds acc l) (insertIds_nodup l acc h)

/-! ### Lemmas: canonical form of the deployment rrf (scores and kept points) -/

theorem sortDesc_congr {α : Type} (f g : α → ℚ) :
    ∀ l : List α, (∀ a ∈ l, f a = g a) → sortDesc f l = sortDesc g l := by
  have hins : ∀ (x : α) (l : List α), f x = g x → (∀ a ∈ l, f a = g a) →
      insertDesc f x l = insertDesc g x l := by
    intro x l
    induction l with
    | nil => intro _ _; rfl
    | cons y rest ih =>
        intro hx hl
        rw [insertDesc, insertDesc, hl y (List.mem_cons_self y rest), hx,
          ih hx (fun a ha => hl a (List.mem_cons_of_mem y ha))]
  intro l
  induction l with
  | nil => intro _; rfl
  | cons x rest ih =>
      intro h
      rw [sortDesc, sortDesc, ih (fun a ha => h a (List.mem_cons_of_mem x ha))]
      refine hins x _ (h x (List.mem_cons_self x rest)) ?_
      intro a ha
      exact h a (List.mem_cons_of_mem x ((mem_sortDesc g rest a).mp ha))

theorem lookupD_canon_mem (ks : List String) (v : String → ℚ) (id : String) (d : ℚ)
    (h : id ∈ ks) : lookupD (ks.map fun j => (j, v j)) id d = v id := by
  induction ks with
  | nil => cases h
  | cons y rest ih =>
      by_cases hy : y = id
      · simp [lookupD, lookupQ, hy]
      · have : id ∈ rest := by
          rcases List.mem_cons.mp h with h1 | h1
          · exact absurd h1.symm hy
          · exact h1
        simpa [lookupD, lookupQ, hy] using ih this

theorem setdefault_canon (ks : List String) (w : String → QPoint) (x : String)
    (p : QPoint) (hnd : ks.Nodup) :
    setdefault (ks.map fun id => (id, w id)) x p
      = (if x ∈ ks then ks else ks ++ [x]).map
          fun id => (id, if id = x then (if x ∈ ks then w x else p) else w id) := by
  induction ks with
  | nil => simp [setdefault]
  | cons y rest ih =>
      rw [List.nodup_cons] at hnd
      by_cases hyx : y = x
      · subst hyx
        have hxin : y ∈ y :: rest := List.mem_cons_self y rest
        simp only [List.map_cons, setdefault, eq_self_iff_true, if_true, if_pos hxin]
        congr 1
        refine (List.map_congr_left ?_).symm
        intro id hid
        have hne : ¬ (id = y) := fun he => hnd.1 (he ▸ hid)
        rw [if_neg hne]
      · simp only [List.map_cons, setdefault, if_neg hyx]
        rw [ih hnd.2]
        by_cases hx : x ∈ rest
        · have hx2 : x ∈ y :: rest := List.mem_cons_of_mem y hx
          simp only [if_pos hx, if_pos hx2, List.map_cons, if_neg hyx]
        · have hx2 : x ∉ y :: rest := by
            intro hmem
            rcases List.mem_cons.mp hmem with h1 | h1
            · exact hyx h1.symm
            · exact hx h1
          simp only [if_neg hx, if_neg hx2, List.cons_append, List.map_cons, if_neg hyx]

theorem extendW_update (w : String → QPoint) (ks : List String) (p : QPoint)
    (rest : List QPoint) (id : String) :
    extendW (fun j => if j = p.id then (if p.id ∈ ks then w p.id else p) else w j)
        (if p.id ∈ ks then ks else ks ++ [p.id]) rest id
      = extendW w ks (p :: rest) id := by
  by_cases hid : id = p.id
  · subst hid
    have hin : p.id ∈ (if p.id ∈ ks then ks else ks ++ [p.id]) := by
      by_cases h : p.id ∈ ks
      · rw [if_pos h]; exact h
      · rw [if_neg h]; exact List.mem_append_right _ (List.mem_singleton_self _)
    simp only [extendW, if_pos hin, eq_self_iff_true, if_true]
    have hfind : (p :: rest).find? (fun q => decide (q.id = p.id)) = some p := by
      have hd : (decide (p.id = p.id)) = true := by simp
      simp [List.find?, hd]
    by_cases h : p.id ∈ ks
    · simp only [if_pos h]
    · simp only [if_neg h, hfind, Option.getD_some]
  · have hne : ¬ (p.id = id) := fun he => hid he.symm
    have hmem : id ∈ (if p.id ∈ ks then ks else ks ++ [p.id]) ↔ id ∈ ks := by
      by_cases h : p.id ∈ ks
      · simp only [if_pos h]
      · simp only [if_neg h, List.mem_append, List.mem_singleton]
        constructor
        · rintro (h1 | h1)
          · exact h1
          · exact absurd h1 hid
        · exact fun hm => Or.inl hm
    have hfind : (p :: rest).find? (fun q => decide (q.id = id))
        = rest.find? (fun q => decide (q.id = id)) := by
      have hd : (decide (p.id = id)) = false := by simpa using hne
      simp [List.find?, hd]
    simp only [extendW]
    by_cases h : id ∈ ks
    · simp only [if_pos (hmem.mpr h), if_pos h, if_neg hid]
    · simp only [if_neg (fun hm => h (hmem.mp hm)), if_neg h, hfind]

theorem rrfDeployAdd_canon (k : Nat) (l : List QPoint) :
    ∀ (r : Nat) (ks : List String) (g : String → ℚ) (w : String → QPoint), ks.Nodup →
    rrfDeployAdd k r (ks.map fun id => (id, g id), ks.map fun id => (id, w id)) l
      = ((insertIds ks (l.map QPoint.id)).map
           (fun id => (id, extendF g ks id + contribAux k r (l.map QPoint.id) id)),
         (insertIds ks (l.map QPoint.id)).map
           (fun id => (id, extendW w ks l id))) := by
  induction l with
  | nil =>
      intro r ks g w _
      simp only [rrfDeployAdd, List.map_nil, insertIds, Prod.mk.injEq]
      refine ⟨?_, ?_⟩
      · refine List.map_congr_left ?_
        intro id hid
        rw [extendF_mem g ks id hid, contribAux, add_zero]
      · refine List.map_congr_left ?_
        intro id hid
        simp only [extendW, if_pos hid]
  | cons p rest ih =>
      intro r ks g w hnd
      rw [rrfDeployAdd, updateScore_canon ks g p.id (1 / ((k : ℚ) + r)) hnd,
        setdefault_canon ks w p.id p hnd]
      have hnd2 : (if p.id ∈ ks then ks else ks ++ [p.id]).Nodup := by
        by_cases hx : p.id ∈ ks
        · simp only [if_pos hx]; exact hnd
        · simp only [if_neg hx]; simpa [List.nodup_append] using ⟨hnd, hx⟩
      rw [ih (r + 1) _ _ _ hnd2]
      have hins : insertIds ks (((p :: rest).map QPoint.id))
          = insertIds (if p.id ∈ ks then ks else ks ++ [p.id]) (rest.map QPoint.id) := by
        rw [List.map_cons, insertIds_cons]
      simp only [Prod.mk.injEq]
      refine ⟨?_, ?_⟩
      · rw [hins]
        refine List.map_congr_left ?_
        intro id _
        rw [extendF_update g ks p.id (1 / ((k : ℚ) + r)) id, List.map_cons, contribAux]
        ring_nf
      · rw [hins]
        refine List.map_congr_left ?_
        intro id _
        rw [extendW_update w ks p rest id]

theorem extendW_fold (w : String → QPoint) (ks : List String) (l t : List QPoint)
    (id : String) :
    extendW (extendW w ks l) (insertIds ks (l.map QPoint.id)) t id
      = extendW w ks (l ++ t) id := by
  by_cases hks : id ∈ ks
  · have h1 : id ∈ insertIds ks (l.map QPoint.id) :=
      (mem_insertIds _ _ _).mpr (Or.inl hks)
    simp only [extendW, if_pos h1, if_pos hks]
  · by_cases hl : id ∈ l.map QPoint.id
    · have h1 : id ∈ insertIds ks (l.map QPoint.id) :=
        (mem_insertIds _ _ _).mpr (Or.inr hl)
      simp only [extendW, if_pos h1, if_neg hks]
      obtain ⟨q, hq, hqid⟩ := List.mem_map.mp hl
      have hsome : (l.find? (fun p => decide (p.id = id))).isSome := by
        rw [List.find?_isSome]
        exact ⟨q, hq, by simp [hqid]⟩
      obtain ⟨a, ha⟩ := Option.isSome_iff_exists.mp hsome
      rw [List.find?_append, ha]
      rfl
    · have h1 : id ∉ insertIds ks (l.map QPoint.id) := by
        intro hm
        rcases (mem_insertIds _ _ _).mp hm with h2 | h2
        · exact hks h2
        · exact hl h2
      simp only [extendW, if_neg h1, if_neg hks]
      have hnone : l.find? (fun p => decide (p.id = id)) = none := by
        rw [List.find?_eq_none]
        intro q hq
        simp only [decide_eq_true_eq]
        intro he
        exact hl (List.mem_map.mpr ⟨q, hq, he⟩)
      rw [List.find?_append, hnone]
      rfl

theorem rrfDeployFold_canon (k : Nat) (rs : List (List QPoint)) :
    ∀ (ks : List String) (g : String → ℚ) (w : String → QPoint), ks.Nodup →
    rs.foldl (fun st results => rrfDeployAdd k 1 st results)
        (ks.map fun id => (id, g id), ks.map fun id => (id, w id))
      = (((qIds rs).foldl insertIds ks).map
           (fun id => (id, extendF g ks id + ((qIds rs).map (fun l => contribAux k 1 l id)).sum)),
         ((qIds rs).foldl insertIds ks).map
           (fun id => (id, extendW w ks rs.flatten id))) := by
  induction rs with
  | nil =>
      intro ks g w _
      simp only [List.foldl_nil, qIds, List.map_nil, List.sum_nil, List.flatten_nil,
        Prod.mk.injEq]
      refine ⟨?_, ?_⟩
      · refine List.map_congr_left ?_
        intro id hid
        rw [extendF_mem g ks id hid, add_zero]
      · refine List.map_congr_left ?_
        intro id hid
        simp only [extendW, if_pos hid]
  | cons l rest ih =>
      intro ks g w hnd
      rw [List.foldl_cons, rrfDeployAdd_canon k l 1 ks g w hnd,
        ih (insertIds ks (l.map QPoint.id)) _ _
          (insertIds_nodup (l.map QPoint.id) ks hnd)]
      have hq : qIds (l :: rest) = (l.map QPoint.id) :: qIds rest := rfl
      rw [hq, List.foldl_cons]
      simp only [Prod.mk.injEq]
      refine ⟨?_, ?_⟩
      · refine List.map_congr_left ?_
        intro id _
        have hpt : extendF (fun j => extendF g ks j + contribAux k 1 (l.map QPoint.id) j)
            (insertIds ks (l.map QPoint.id)) id
            = extendF g ks id + contribAux k 1 (l.map QPoint.id) id := by
          by_cases h : id ∈ insertIds ks (l.map QPoint.id)
          · rw [extendF_mem _ _ _ h]
          · have hks : id ∉ ks := fun hm => h ((mem_insertIds _ _ _).mpr (Or.inl hm))
            have hl : id ∉ l.map QPoint.id := fun hm => h ((mem_insertIds _ _ _).mpr (Or.inr hm))
            rw [extendF_not_mem _ _ _ h, extendF_not_mem g ks id hks,
              contribAux_not_mem k _ id hl 1, add_zero]
        rw [hpt, List.map_cons, List.sum_cons]
        ring_nf
      · refine List.map_congr_left ?_
        intro id _
        rw [extendW_fold w ks l rest.flatten id, List.flatten_cons]

theorem mem_foldl_insertIds (rs : List (List String)) :
    ∀ (acc : List String) (id : String),
    id ∈ rs.foldl insertIds acc ↔ id ∈ acc ∨ ∃ l ∈ rs, id ∈ l := by
  induction rs with
  | nil => intro acc id; simp
  | cons l rest ih =>
      intro acc id
      rw [List.foldl_cons, ih (insertIds acc l) id, mem_insertIds]
      constructor
      · rintro ((h | h) | ⟨l2, hl2, hid⟩)
        · exact Or.inl h
        · exact Or.inr ⟨l, List.mem_cons_self l rest, h⟩
        · exact Or.inr ⟨l2, List.mem_cons_of_mem l hl2, hid⟩
      · rintro (h | ⟨l2, hl2, hid⟩)
        · exact Or.inl (Or.inl h)
        · rcases List.mem_cons.mp hl2 with h1 | h1
          · exact Or.inl (Or.inr (h1 ▸ hid))
          · exact Or.inr ⟨l2, h1, hid⟩

theorem mem_firstSeen (rs : List (List String)) (id : String) :
    id ∈ firstSeen rs ↔ ∃ l ∈ rs, id ∈ l := by
  rw [firstSeen, mem_foldl_insertIds]
  simp

theorem find?_flatten_of_mem_firstSeen (rs : List (List QPoint)) (id : String)
    (h : id ∈ firstSeen (qIds rs)) :
    ∃ q, rs.flatten.find? (fun p => decide (p.id = id)) = some q ∧ q.id = id := by
  obtain ⟨l2, hl2, hid⟩ := (mem_firstSeen (qIds rs) id).mp h
  obtain ⟨lq, hlq, rfl⟩ := List.mem_map.mp hl2
  obtain ⟨q, hq, hqid⟩ := List.mem_map.mp hid
  have hsome : (rs.flatten.find? (fun p => decide (p.id = id))).isSome := by
    rw [List.find?_isSome]
    exact ⟨q, List.mem_flatten.mpr ⟨lq, hlq, hq⟩, by simp [hqid]⟩
  obtain ⟨a, ha⟩ := Option.isSome_iff_exists.mp hsome
  refine ⟨a, ha, ?_⟩
  have := List.find?_some ha
  simpa using this

/-- Canonical form of `search.rrf`: it returns the first-seen representative
of every id, stably sorted (descending) by the accumulated fused score. -/
theorem rrfDeploy_canon (rs : List (List QPoint)) (k : Nat) :
    rrfDeploy rs k
      = sortDesc (fun p => ((qIds rs).map (fun l => contribAux k 1 l p.id)).sum)
          (firstSeenReps rs) := by
  unfold rrfDeploy
  have hfold := rrfDeployFold_canon k rs [] (fun _ => 0) (fun _ => defaultQPoint)
    List.nodup_nil
  simp only [List.map_nil] at hfold
  rw [hfold]
  show sortDesc
      (fun r => lookupD ((firstSeen (qIds rs)).map
        (fun id => (id, extendF (fun _ => 0) [] id
          + ((qIds rs).map (fun l => contribAux k 1 l id)).sum))) r.id 0)
      (((firstSeen (qIds rs)).map
        (fun id => (id, extendW (fun _ => defaultQPoint) [] rs.flatten id))).map Prod.snd)
    = _
  have hB : ((firstSeen (qIds rs)).map
      (fun id => (id, extendW (fun _ => defaultQPoint) [] rs.flatten id))).map Prod.snd
      = firstSeenReps rs := by
    rw [List.map_map, firstSeenReps]
    refine List.map_congr_left ?_
    intro id _
    simp [extendW]
  rw [hB]
  refine sortDesc_congr _ _ (firstSeenReps rs) ?_
  intro p hp
  obtain ⟨id0, hid0, hpdef⟩ := List.mem_map.mp hp
  obtain ⟨q, hfind, hqid⟩ := find?_flatten_of_mem_firstSeen rs id0 hid0
  have hpq : p = q := by rw [← hpdef, hfind, Option.getD_some]
  have hpid : p.id = id0 := by rw [hpq, hqid]
  rw [hpid, lookupD_canon_mem _ _ _ _ hid0, extendF_not_mem _ _ _ (List.not_mem_nil id0),
    zero_add]

/-- Canonical form of `reciprocal_rank_fusion` with spec scores, under
per-list distinctness of ids. -/
theorem rrf_canon_spec (rs : List (List (String × ℚ))) (k : Nat)
    (h1 : ∀ l ∈ rs, (l.map Prod.fst).Nodup) :
    reciprocal_rank_fusion rs k
      = sortDesc Prod.snd ((firstSeen (rs.map fun l => l.map Prod.fst)).map
          fun id => (id, rrfSpecScore (rs.map fun l => l.map Prod.fst) k id)) := by
  rw [reciprocal_rank_fusion_canon]
  refine congrArg (sortDesc Prod.snd) ?_
  refine List.map_congr_left ?_
  intro id _
  have hnd : ∀ l2 ∈ (rs.map fun l => l.map Prod.fst), l2.Nodup := by
    intro l2 hl2
    obtain ⟨l, hl, rfl⟩ := List.mem_map.mp hl2
    exact h1 l hl
  rw [← sum_contribAux_eq_spec k _ id hnd, List.map_map]
  rfl

/-- Canonical form of `search.rrf` with spec scores, under per-list
distinctness of point ids. -/
theorem rrfDeploy_canon_spec (rs2 : List (List QPoint)) (k : Nat)
    (h2 : ∀ l ∈ rs2, (l.map QPoint.id).Nodup) :
    rrfDeploy rs2 k
      = sortDesc (fun p => rrfSpecScore (qIds rs2) k p.id) (firstSeenReps rs2) := by
  rw [rrfDeploy_canon]
  refine sortDesc_congr _ _ (firstSeenReps rs2) ?_
  intro p _
  refine sum_contribAux_eq_spec k _ _ ?_
  intro l2 hl2
  obtain ⟨l, hl, rfl⟩ := List.mem_map.mp hl2
  exact h2 l hl

/-- Claim C1: both RRF fusion functions (`reciprocal_rank_fusion` in
`src/core/hybrid_search.py` and `rrf` in `src/scripts/deployment/search.py`)
assign every item the fused score `sum over lists of 1/(k + rank)` with
1-based ranks and zero for absence, and return the items sorted by fused
score descending with ties broken by first-seen order across the input
lists; the deployment variant returns the first-seen representative object
of each id, and only objects present in the input. -/
theorem C1_rrf_fusion (rs : List (List (String × ℚ))) (rs2 : List (List QPoint)) (k : Nat)
    (h1 : ∀ l ∈ rs, (l.map Prod.fst).Nodup)
    (h2 : ∀ l ∈ rs2, (l.map QPoint.id).Nodup) :
    (∀ p ∈ reciprocal_rank_fusion rs k,
        p.2 = rrfSpecScore (rs.map fun l => l.map Prod.fst) k p.1)
    ∧ (reciprocal_rank_fusion rs k).Pairwise (fun a b => b.2 ≤ a.2)
    ∧ (reciprocal_rank_fusion rs k).Pairwise (fun a b =>
        a.2 = b.2 → seenlt (firstSeen (rs.map fun l => l.map Prod.fst)) a.1 b.1)
    ∧ List.Perm ((reciprocal_rank_fusion rs k).map Prod.fst)
        (firstSeen (rs.map fun l => l.map Prod.fst))
    ∧ List.Perm (rrfDeploy rs2 k) (firstSeenReps rs2)
    ∧ (∀ p ∈ rrfDeploy rs2 k, ∃ l ∈ rs2, p ∈ l)
    ∧ (rrfDeploy rs2 k).Pairwise (fun a b =>
        rrfSpecScore (qIds rs2) k b.id ≤ rrfSpecScore (qIds rs2) k a.id)
    ∧ (rrfDeploy rs2 k).Pairwise (fun a b =>
        rrfSpecScore (qIds rs2) k a.id = rrfSpecScore (qIds rs2) k b.id →
          seenlt (firstSeen (qIds rs2)) a.id b.id) := by
  have hc1 := rrf_canon_spec rs k h1
  have hc2 := rrfDeploy_canon_spec rs2 k h2
  refine ⟨?_, ?_, ?_, ?_, ?_, ?_, ?_, ?_⟩
  · intro p hp
    rw [hc1] at hp
    rw [mem_sortDesc] at hp
    obtain ⟨id0, _, rfl⟩ := List.mem_map.mp hp
    rfl
  · rw [hc1]
    exact sortDesc_sorted _ _
  · rw [hc1]
    have hbase : ((firstSeen (rs.map fun l => l.map Prod.fst)).map
        (fun id => (id, rrfSpecScore (rs.map fun l => l.map Prod.fst) k id))).Pairwise
        (fun a b => seenlt (firstSeen (rs.map fun l => l.map Prod.fst)) a.1 b.1) := by
      rw [List.pairwise_map]
      exact pairwise_seenlt _ (firstSeen_nodup _)
    have hp := pairwise_sortDesc Prod.snd _ _ hbase
    refine hp.imp ?_
    intro a b hab heq
    rcases hab with hlt | ⟨_, hq⟩
    · rw [heq] at hlt
      exact absurd hlt (lt_irrefl _)
    · exact hq
  · rw [hc1]
    have hperm := (perm_sortDesc Prod.snd ((firstSeen (rs.map fun l => l.map Prod.fst)).map
      (fun id => (id, rrfSpecScore (rs.map fun l => l.map Prod.fst) k id)))).map Prod.fst
    refine hperm.trans ?_
    rw [List.map_map]
    have : (Prod.fst ∘ fun id => (id, rrfSpecScore (rs.map fun l => l.map Prod.fst) k id))
        = fun id => id := rfl
    rw [this, List.map_id']
  · rw [hc2]
    exact perm_sortDesc _ _
  · intro p hp
    rw [hc2, mem_sortDesc] at hp
    obtain ⟨id0, hid0, hpdef⟩ := List.mem_map.mp hp
    obtain ⟨q, hfind, _⟩ := find?_flatten_of_mem_firstSeen rs2 id0 hid0
    have hpq : p = q := by rw [← hpdef, hfind, Option.getD_some]
    have hqmem := List.mem_of_find?_eq_some hfind
    obtain ⟨l, hl, hql⟩ := List.mem_flatten.mp hqmem
    exact ⟨l, hl, hpq ▸ hql⟩
  · rw [hc2]
    exact sortDesc_sorted _ _
  · rw [hc2]
    have hbase : (firstSeenReps rs2).Pairwise
        (fun a b => seenlt (firstSeen (qIds rs2)) a.id b.id) := by
      rw [firstSeenReps, List.pairwise_map]
      refine (pairwise_seenlt _ (firstSeen_nodup _)).imp_of_mem ?_
      intro a b ha hb hab
      obtain ⟨qa, hfa, hqa⟩ := find?_flatten_of_mem_firstSeen rs2 a ha
      obtain ⟨qb, hfb, hqb⟩ := find?_flatten_of_mem_firstSeen rs2 b hb
      rw [hfa, hfb, Option.getD_some, Option.getD_some, hqa, hqb]
      exact hab
    have hp := pairwise_sortDesc (fun p => rrfSpecScore (qIds rs2) k p.id) _ _ hbase
    refine hp.imp ?_
    intro a b hab heq
    rcases hab with hlt | ⟨_, hq⟩
    · have hlt2 : rrfSpecScore (qIds rs2) k b.id < rrfSpecScore (qIds rs2) k a.id := hlt
      rw [heq] at hlt2
      exact absurd hlt2 (lt_irrefl _)
    · exact hq

/-- Witness for C1 at the spec's own example (`A=[x,y,z]`, `B=[y,x,w]`, `k=60`). -/
theorem C1_rrf_fusion_witness :
    (∀ l ∈ rrfExampleSets, (l.map Prod.fst).Nodup)
    ∧ (∀ l ∈ rrfExamplePoints, (l.map QPoint.id).Nodup)
    ∧ ((∀ p ∈ reciprocal_rank_fusion rrfExampleSets 60,
        p.2 = rrfSpecScore (rrfExampleSets.map fun l => l.map Prod.fst) 60 p.1)
    ∧ (reciprocal_rank_fusion rrfExampleSets 60).Pairwise (fun a b => b.2 ≤ a.2)
    ∧ (reciprocal_rank_fusion rrfExampleSets 60).Pairwise (fun a b =>
        a.2 = b.2 → seenlt (firstSeen (rrfExampleSets.map fun l => l.map Prod.fst)) a.1 b.1)
    ∧ List.Perm ((reciprocal_rank_fusion rrfExampleSets 60).map Prod.fst)
        (firstSeen (rrfExampleSets.map fun l => l.map Prod.fst))
    ∧ List.Perm (rrfDeploy rrfExamplePoints 60) (firstSeenReps rrfExamplePoints)
    ∧ (∀ p ∈ rrfDeploy rrfExamplePoints 60, ∃ l ∈ rrfExamplePoints, p ∈ l)
    ∧ (rrfDeploy rrfExamplePoints 60).Pairwise (fun a b =>
        rrfSpecScore (qIds rrfExamplePoints) 60 b.id
          ≤ rrfSpecScore (qIds rrfExamplePoints) 60 a.id)
    ∧ (rrfDeploy rrfExamplePoints 60).Pairwise (fun a b =>
        rrfSpecScore (qIds rrfExamplePoints) 60 a.id
            = rrfSpecScore (qIds rrfExamplePoints) 60 b.id →
          seenlt (firstSeen (qIds rrfExamplePoints)) a.id b.id)) :=
  ⟨by decide, by decide, C1_rrf_fusion rrfExampleSets rrfExamplePoints 60 (by decide) (by decide)⟩

/-- Claim C5: on a built BM25 index, a query whose tokenization yields no
tokens makes `BM25Index.search` return the empty list (a normal `.ok` value,
not a raised error), whatever the library scorer would do. -/
theorem C5_empty_query_search (idx : BM25Index) (getScores : List String → List ℚ)
    (query : String) (top_k : Nat) (hbuilt : idx.is_built = true)
    (htok : tokenize_german query = []) :
    BM25Index_search idx getScores query top_k = .ok [] := by
  unfold BM25Index_search
  rw [hbuilt, htok]
  simp

/-- Witness for C5: a built index and a query of pure stopwords. -/
theorem C5_empty_query_search_witness :
    ({ doc_ids := ["d1"], is_built := true } : BM25Index).is_built = true
    ∧ tokenize_german "der und zu" = []
    ∧ BM25Index_search { doc_ids := ["d1"], is_built := true } (fun _ => [])
        "der und zu" 5 = .ok [] :=
  ⟨rfl, by decide,
   C5_empty_query_search { doc_ids := ["d1"], is_built := true } (fun _ => [])
     "der und zu" 5 rfl (by decide)⟩

/-- Claim C6: the record identifier is a pure function of
`(doc_hash, chunk_index)` — equal pairs give equal identifiers in any run or
process (the embedding of `uuid5` is an arbitrary fixed function, so the
identifier depends on nothing but the name string) — and distinct pairs whose
`hash|index` name strings differ give distinct identifiers provided the
external `uuid5` is collision-free (injective), so re-indexing unchanged
content overwrites the same records instead of duplicating them. -/
theorem C6_point_id_deterministic (uuid5 : String → String)
    (h1 h2 : String) (i1 i2 : Int) :
    (h1 = h2 → i1 = i2 → point_id uuid5 h1 i1 = point_id uuid5 h2 i2)
    ∧ (Function.Injective uuid5 → pointName h1 i1 ≠ pointName h2 i2 →
        point_id uuid5 h1 i1 ≠ point_id uuid5 h2 i2) := by
  constructor
  · intro he hi
    rw [he, hi]
  · intro hinj hne hcontra
    exact hne (hinj hcontra)

/-- Witness for C6 with the identity as the abstract `uuid5`. -/
theorem C6_point_id_witness :
    Function.Injective (fun s : String => s)
    ∧ pointName "a" 0 ≠ pointName "b" 1
    ∧ point_id (fun s => s) "a" 0 = point_id (fun s => s) "a" 0
    ∧ point_id (fun s => s) "a" 0 ≠ point_id (fun s => s) "b" 1 :=
  ⟨fun _ _ hab => hab, by decide,
   (C6_point_id_deterministic (fun s => s) "a" "a" 0 0).1 rfl rfl,
   (C6_point_id_deterministic (fun s => s) "a" "b" 0 1).2 (fun _ _ hab => hab) (by decide)⟩

/-- Claim C3: a query whose stripped text is exactly eight digits bypasses the
reranker entirely: `retrieve_candidates` returns the fused hybrid retrieval
result unchanged, for every configuration (in particular whatever
`use_rerank` is). -/
theorem C3_id_bypass (cfg : Config1) (denseSearch : String → Nat → List Hit)
    (sparseRank : String → Nat → List Hit) (modelScore : String → String → ℚ)
    (query : String)
    (hlen : (pyStrip query).toList.length = 8)
    (hdig : ∀ c ∈ (pyStrip query).toList, c.isDigit = true) :
    retrieve_candidates1 cfg denseSearch sparseRank modelScore query
      = HybridRetriever_search (denseSearch query cfg.topk_candidate)
          (if cfg.use_hybrid then
            SparseRetriever_search [] sparseRank query cfg.topk_candidate
           else [])
          cfg.topk_candidate := by
  have hskip : should_skip_rerank query = true := by
    simp [should_skip_rerank, List.all_eq_true]
    exact ⟨by simpa using hlen, by simpa using hdig⟩
  unfold retrieve_candidates1
  rw [hskip]
  simp

/-- Witness for C3 at the query `" 12345678 "` (whitespace exercises `strip`). -/
theorem C3_id_bypass_witness :
    (pyStrip " 12345678 ").toList.length = 8
    ∧ (∀ c ∈ (pyStrip " 12345678 ").toList, c.isDigit = true)
    ∧ retrieve_candidates1 smallConfig1 (fun _ _ => [hitA]) (fun _ _ => [])
        (fun _ _ => 0) " 12345678 "
      = HybridRetriever_search ((fun _ _ => [hitA]) " 12345678 " smallConfig1.topk_candidate)
          (if smallConfig1.use_hybrid then
            SparseRetriever_search [] (fun _ _ => []) " 12345678 " smallConfig1.topk_candidate
           else [])
          smallConfig1.topk_candidate :=
  ⟨by decide, by decide,
   C3_id_bypass smallConfig1 (fun _ _ => [hitA]) (fun _ _ => []) (fun _ _ => 0)
     " 12345678 " (by decide) (by decide)⟩

/-- Claim C7 fails on the code: constructing an indexer whose model raw
dimension (512) is below the configured dimension (1024) raises no error —
it proceeds, with the effective dimension silently reduced to 512. -/
theorem C7_fail_fast_counterexample :
    512 < 1024
    ∧ (indexer_init { embed_dim := 1024, qdrant_collection := "c" } 512 true
        { coll := none }).1 = .ok ()
    ∧ effectiveDim { embed_dim := 1024, qdrant_collection := "c" } 512 = 512 := by
  refine ⟨by decide, rfl, by decide⟩

/-- Claim C7 amended: when the model's native dimension is below the
configured one, indexer construction does not fail — it silently proceeds
with `effective_dim = raw_dim` (fresh mode creates the collection at the
reduced dimension); the model-smaller-than-collection error exists only on
the query path, where `_ensure_dims_ok` raises it at search time. -/
theorem C7_effective_dim_amended (cfg : IndexCfg) (raw_dim : Nat) (st : Store)
    (hlt : raw_dim < cfg.embed_dim) :
    effectiveDim cfg raw_dim = raw_dim
    ∧ (indexer_init cfg raw_dim true st).1 = .ok ()
    ∧ (indexer_init cfg raw_dim true st).2.1
        = { coll := some { dim := raw_dim, points := [] } }
    ∧ (∀ q : Nat, ∀ name url : String, raw_dim < q →
        ensure_dims_ok name url (some q) raw_dim
          = .error (embedDimMismatchMsg raw_dim q)) := by
  have heff : effectiveDim cfg raw_dim = raw_dim :=
    min_eq_right (le_of_lt hlt)
  refine ⟨heff, ?_, ?_, ?_⟩
  · rcases st with ⟨coll⟩
    cases coll with
    | none => rfl
    | some c => rfl
  · rcases st with ⟨coll⟩
    cases coll with
    | none => simp [indexer_init, ensure_collection, heff]
    | some c => simp [indexer_init, ensure_collection, heff]
  · intro q name url hq
    unfold ensure_dims_ok
    simp [hq]

/-- Witness for the amended C7. -/
theorem C7_effective_dim_amended_witness :
    effectiveDim { embed_dim := 1024, qdrant_collection := "c" } 512 = 512
    ∧ (indexer_init { embed_dim := 1024, qdrant_collection := "c" } 512 true
        { coll := none }).1 = .ok ()
    ∧ (indexer_init { embed_dim := 1024, qdrant_collection := "c" } 512 true
        { coll := none }).2.1 = { coll := some { dim := 512, points := [] } }
    ∧ ensure_dims_ok "c" "http://localhost:6333" (some 1024) 512
        = .error (embedDimMismatchMsg 512 1024) :=
  ⟨(C7_effective_dim_amended { embed_dim := 1024, qdrant_collection := "c" } 512
      { coll := none } (by decide)).1,
   (C7_effective_dim_amended { embed_dim := 1024, qdrant_collection := "c" } 512
      { coll := none } (by decide)).2.1,
   (C7_effective_dim_amended { embed_dim := 1024, qdrant_collection := "c" } 512
      { coll := none } (by decide)).2.2.1,
   (C7_effective_dim_amended { embed_dim := 1024, qdrant_collection := "c" } 512
      { coll := none } (by decide)).2.2.2 1024 "c" "http://localhost:6333" (by decide)⟩

/-- Claim C8: append-mode indexer construction against an existing collection
of a different dimension raises an error naming both conflicting dimensions,
issues no store operation at all (in particular no upsert), and leaves the
store unchanged. -/
theorem C8_append_dim_guard (cfg : IndexCfg) (raw_dim : Nat) (st : Store)
    (c : Collection) (hc : st.coll = some c)
    (hne : c.dim ≠ effectiveDim cfg raw_dim) :
    indexer_init cfg raw_dim false st
      = (.error (collectionDimMismatchMsg c.dim (effectiveDim cfg raw_dim) raw_dim),
         st, [])
    ∧ (∃ pre mid post : String,
        collectionDimMismatchMsg c.dim (effectiveDim cfg raw_dim) raw_dim
          = pre ++ toString c.dim ++ mid ++ toString (effectiveDim cfg raw_dim) ++ post) := by
  constructor
  · unfold indexer_init ensure_collection
    rw [hc]
    simp [hne]
  · refine ⟨"Qdrant collection dim (", ") != effective embed dim (",
      "). " ++ "Either recreate with --mode fresh or set CFG.embed_dim="
        ++ toString c.dim ++ " " ++ "(current model raw_dim=" ++ toString raw_dim
        ++ ").", ?_⟩
    unfold collectionDimMismatchMsg
    simp [String.append_assoc]

/-- Witness for C8: an existing 512-dimensional collection, effective
dimension 1024. -/
theorem C8_append_dim_guard_witness :
    ({ coll := some { dim := 512, points := [("id0", "pl0")] } } : Store).coll
      = some { dim := 512, points := [("id0", "pl0")] }
    ∧ (512 : Nat) ≠ effectiveDim { embed_dim := 1024, qdrant_collection := "c" } 1024
    ∧ (indexer_init { embed_dim := 1024, qdrant_collection := "c" } 1024 false
        { coll := some { dim := 512, points := [("id0", "pl0")] } }
      = (.error (collectionDimMismatchMsg 512
          (effectiveDim { embed_dim := 1024, qdrant_collection := "c" } 1024) 1024),
         { coll := some { dim := 512, points := [("id0", "pl0")] } }, [])
    ∧ (∃ pre mid post : String,
        collectionDimMismatchMsg 512
            (effectiveDim { embed_dim := 1024, qdrant_collection := "c" } 1024) 1024
          = pre ++ toString (512 : Nat) ++ mid
            ++ toString (effectiveDim { embed_dim := 1024, qdrant_collection := "c" } 1024)
            ++ post)) :=
  ⟨rfl, by decide,
   C8_append_dim_guard { embed_dim := 1024, qdrant_collection := "c" } 1024
     { coll := some { dim := 512, points := [("id0", "pl0")] } }
     { dim := 512, points := [("id0", "pl0")] } rfl (by decide)⟩

theorem zip_map_self {α β : Type} (l : List α) (g : α → β) :
    l.zip (l.map g) = l.map fun x => (x, g x) := by
  induction l with
  | nil => rfl
  | cons x rest ih => simp [List.zip_cons_cons, ih]

/-- Claim C2: `Reranker.rerank` returns the input unchanged when it has at
most `keep` hits; otherwise it returns at most `keep` hits, each one derived
from an input hit (same text and payload) carrying the blended score
`w * rerank_score + (1 - w) * original_score`, sorted by blended score
descending. -/
theorem C2_rerank_contract (modelScore : String → String → ℚ) (w : ℚ) (query : String)
    (hits : List Hit) (keep : Nat) :
    (hits.length ≤ keep → Reranker_rerank modelScore w query hits keep = hits)
    ∧ (keep < hits.length →
        (Reranker_rerank modelScore w query hits keep).length ≤ keep
        ∧ (∀ h2 ∈ Reranker_rerank modelScore w query hits keep, ∃ h ∈ hits,
            h2.text = h.text ∧ h2.payload = h.payload
            ∧ h2.score = w * modelScore query (rerankClip (candText h)) + (1 - w) * h.score)
        ∧ (Reranker_rerank modelScore w query hits keep).Pairwise
            (fun a b => b.score ≤ a.score)) := by
  constructor
  · intro hle
    unfold Reranker_rerank
    rw [if_pos hle]
  · intro hgt
    have hnle : ¬ hits.length ≤ keep := not_le.mpr hgt
    have hform : Reranker_rerank modelScore w query hits keep
        = (sortDesc Hit.score (hits.map fun h =>
            { text := h.text,
              score := w * modelScore query (rerankClip (candText h)) + (1 - w) * h.score,
              payload := h.payload : Hit })).take keep := by
      unfold Reranker_rerank
      rw [if_neg hnle]
      simp only [List.map_map, zip_map_self]
      rfl
    refine ⟨?_, ?_, ?_⟩
    · rw [hform, List.length_take]
      exact min_le_left _ _
    · intro h2 hh2
      rw [hform] at hh2
      have hh3 := (mem_sortDesc _ _ _).mp (List.mem_of_mem_take hh2)
      obtain ⟨h, hh, rfl⟩ := List.mem_map.mp hh3
      exact ⟨h, hh, rfl, rfl, rfl⟩
    · rw [hform]
      exact (sortDesc_sorted Hit.score _).sublist (List.take_sublist keep _)

/-- Witness for C2: pass-through at size 2 with room 2, narrowing at room 1. -/
theorem C2_rerank_contract_witness :
    Reranker_rerank (fun _ _ => 0) 0 "q" [hitA, hitB] 2 = [hitA, hitB]
    ∧ (1 : Nat) < ([hitA, hitB] : List Hit).length
    ∧ ((Reranker_rerank (fun _ _ => 0) 0 "q" [hitA, hitB] 1).length ≤ 1
       ∧ (∀ h2 ∈ Reranker_rerank (fun _ _ => 0) 0 "q" [hitA, hitB] 1,
            ∃ h ∈ ([hitA, hitB] : List Hit),
            h2.text = h.text ∧ h2.payload = h.payload
            ∧ h2.score = 0 * (fun _ _ => (0 : ℚ)) "q" (rerankClip (candText h))
                + (1 - 0) * h.score)
       ∧ (Reranker_rerank (fun _ _ => 0) 0 "q" [hitA, hitB] 1).Pairwise
            (fun a b => b.score ≤ a.score)) :=
  ⟨(C2_rerank_contract (fun _ _ => 0) 0 "q" [hitA, hitB] 2).1 (by decide),
   by decide,
   (C2_rerank_contract (fun _ _ => 0) 0 "q" [hitA, hitB] 1).2 (by decide)⟩

/-! ### Lemmas: HybridRetriever score map -/

theorem lookupQ_canon_mem (ks : List String) (v : String → ℚ) (id : String)
    (h : id ∈ ks) : lookupQ (ks.map fun j => (j, v j)) id = some (v id) := by
  induction ks with
  | nil => cases h
  | cons y rest ih =>
      by_cases hy : y = id
      · simp [lookupQ, hy]
      · have : id ∈ rest := by
          rcases List.mem_cons.mp h with h1 | h1
          · exact absurd h1.symm hy
          · exact h1
        simpa [lookupQ, hy] using ih this

theorem hybridRrfGo_eq (hits : List Hit) :
    ∀ (r : Nat) (m : List (String × ℚ)),
    hybridRrfGo r m hits = rrfAddList 60 r m (hits.map hitKey) := by
  induction hits with
  | nil => intro r m; rfl
  | cons h rest ih =>
      intro r m
      rw [hybridRrfGo, List.map_cons, rrfAddList, ih]
      norm_num

theorem hybridRrf_canon (hits : List Hit) :
    hybridRrf hits = (insertIds [] (hits.map hitKey)).map
      fun key => (key, contribAux 60 1 (hits.map hitKey) key) := by
  rw [hybridRrf, hybridRrfGo_eq]
  have h := rrfAddList_canon 60 (hits.map hitKey) 1 [] (fun _ => 0) List.nodup_nil
  simp only [List.map_nil] at h
  rw [h]
  refine List.map_congr_left ?_
  intro key _
  rw [extendF_not_mem _ _ _ (List.not_mem_nil key), zero_add]

theorem lookupQ_updateScore_same (m : List (String × ℚ)) (key : String) (v : ℚ) :
    lookupQ (updateScore m key v) key = some (lookupD m key 0 + v) := by
  induction m with
  | nil => simp [updateScore, lookupQ, lookupD]
  | cons kv rest ih =>
      rcases kv with ⟨k0, v0⟩
      by_cases hk : k0 = key
      · subst hk
        simp [updateScore, lookupQ, lookupD]
      · simp [updateScore, lookupQ, lookupD, hk, ih]

theorem lookupQ_updateScore_ne (m : List (String × ℚ)) (key key2 : String) (v : ℚ)
    (hne : key2 ≠ key) : lookupQ (updateScore m key v) key2 = lookupQ m key2 := by
  induction m with
  | nil =>
      have hne2 : ¬ (key = key2) := fun h => hne h.symm
      simp [updateScore, lookupQ, hne2]
  | cons kv rest ih =>
      rcases kv with ⟨k0, v0⟩
      by_cases hk : k0 = key
      · subst hk
        have : ¬ (k0 = key2) := fun h => hne h.symm
        simp [updateScore, lookupQ, this]
      · simp [updateScore, lookupQ, hk, ih]

theorem lookupD_addScores_present (adds : List (String × ℚ)) :
    ∀ (m : List (String × ℚ)) (key : String) (a dflt : ℚ),
    lookupQ m key = some a →
    lookupD (addScores m adds) key dflt
      = a + (adds.map fun kv => if kv.1 = key then kv.2 else 0).sum := by
  induction adds with
  | nil =>
      intro m key a dflt h
      simp [addScores, lookupD, h]
  | cons kv rest ih =>
      rcases kv with ⟨k0, v0⟩
      intro m key a dflt h
      rw [addScores]
      by_cases hk : k0 = key
      · subst hk
        have hsame : lookupQ (updateScore m k0 v0) k0 = some (a + v0) := by
          rw [lookupQ_updateScore_same]
          have : lookupD m k0 0 = a := by rw [lookupD, h, Option.getD_some]
          rw [this]
        rw [ih _ _ _ dflt hsame, List.map_cons, List.sum_cons, if_pos rfl]
        ring
      · have hne2 : key ≠ k0 := fun h2 => hk h2.symm
        have hsame : lookupQ (updateScore m k0 v0) key = some a := by
          rw [lookupQ_updateScore_ne m k0 key v0 hne2, h]
        rw [ih _ _ _ dflt hsame, List.map_cons, List.sum_cons, if_neg hk, zero_add]

theorem sumFor_canon (ks : List String) (v : String → ℚ) (key : String)
    (hnd : ks.Nodup) :
    ((ks.map fun j => (j, v j)).map (fun kv => if kv.1 = key then kv.2 else 0)).sum
      = if key ∈ ks then v key else 0 := by
  induction ks with
  | nil => simp
  | cons y rest ih =>
      rw [List.nodup_cons] at hnd
      rw [List.map_cons, List.map_cons, List.sum_cons, ih hnd.2]
      by_cases hy : y = key
      · subst hy
        have hout : y ∉ rest := hnd.1
        rw [if_pos rfl, if_neg hout, if_pos (List.mem_cons_self y rest), add_zero]
      · by_cases hkey : key ∈ rest
        · have : key ∈ y :: rest := List.mem_cons_of_mem y hkey
          rw [if_neg hy, if_pos hkey, if_pos this, zero_add]
        · have : key ∉ y :: rest := by
            intro hmem
            rcases List.mem_cons.mp hmem with h1 | h1
            · exact hy h1.symm
            · exact hkey h1
          rw [if_neg hy, if_neg hkey, if_neg this, zero_add]

theorem hybrid_score_val (d s : List Hit) (h : Hit) (hd : h ∈ d) :
    lookupD (if s.isEmpty then hybridRrf d
             else addScores (hybridRrf d) (hybridRrf s)) (hitKey h) h.score
      = fusedKeyScore d s (hitKey h) := by
  have hmem : hitKey h ∈ insertIds [] (d.map hitKey) :=
    (mem_insertIds _ _ _).mpr (Or.inr (List.mem_map.mpr ⟨h, hd, rfl⟩))
  have hlq : lookupQ (hybridRrf d) (hitKey h)
      = some (contribAux 60 1 (d.map hitKey) (hitKey h)) := by
    rw [hybridRrf_canon]
    exact lookupQ_canon_mem _ _ _ hmem
  by_cases hs : s.isEmpty
  · have hsnil : s = [] := List.isEmpty_iff.mp hs
    rw [if_pos hs, lookupD, hlq, Option.getD_some, fusedKeyScore, hsnil]
    simp [contribAux]
  · rw [if_neg hs, lookupD_addScores_present _ _ _ _ _ hlq, fusedKeyScore]
    congr 1
    rw [hybridRrf_canon s, sumFor_canon _ _ _ (insertIds_nodup _ _ List.nodup_nil)]
    by_cases hk : hitKey h ∈ insertIds [] (s.map hitKey)
    · rw [if_pos hk]
    · rw [if_neg hk]
      have : hitKey h ∉ s.map hitKey := by
        intro hmem2
        exact hk ((mem_insertIds _ _ _).mpr (Or.inr hmem2))
      rw [contribAux_not_mem _ _ _ this 1]

/-- Claim C10: every hit returned by `HybridRetriever.search` is derived from
a dense hit (same text and payload; the sparse list only contributes to the
fused score of dense hits with the same `source_path#chunk_idx` key and its
hits are never themselves returned); the output is sorted by fused score
descending and holds at most `top_k` hits. -/
theorem C10_hybrid_dense_only (d s : List Hit) (top_k : Nat) :
    (∀ h2 ∈ HybridRetriever_search d s top_k, ∃ h ∈ d,
        h2.text = h.text ∧ h2.payload = h.payload
        ∧ h2.score = fusedKeyScore d s (hitKey h))
    ∧ (HybridRetriever_search d s top_k).Pairwise (fun a b => b.score ≤ a.score)
    ∧ (HybridRetriever_search d s top_k).length ≤ top_k := by
  have hform : HybridRetriever_search d s top_k
      = (sortDesc Hit.score (d.map fun h =>
          { text := h.text,
            score := lookupD (if s.isEmpty then hybridRrf d
              else addScores (hybridRrf d) (hybridRrf s)) (hitKey h) h.score,
            payload := h.payload : Hit })).take top_k := rfl
  refine ⟨?_, ?_, ?_⟩
  · intro h2 hh2
    rw [hform] at hh2
    have hh3 := (mem_sortDesc _ _ _).mp (List.mem_of_mem_take hh2)
    obtain ⟨h, hh, rfl⟩ := List.mem_map.mp hh3
    exact ⟨h, hh, rfl, rfl, hybrid_score_val d s h hh⟩
  · rw [hform]
    exact (sortDesc_sorted Hit.score _).sublist (List.take_sublist top_k _)
  · rw [hform, List.length_take]
    exact min_le_left _ _

/-- Witness for C10 at a concrete dense/sparse pair. -/
theorem C10_hybrid_dense_only_witness :
    (∀ h2 ∈ HybridRetriever_search [hitA, hitB] [hitB] 1, ∃ h ∈ ([hitA, hitB] : List Hit),
        h2.text = h.text ∧ h2.payload = h.payload
        ∧ h2.score = fusedKeyScore [hitA, hitB] [hitB] (hitKey h))
    ∧ (HybridRetriever_search [hitA, hitB] [hitB] 1).Pairwise (fun a b => b.score ≤ a.score)
    ∧ (HybridRetriever_search [hitA, hitB] [hitB] 1).length ≤ 1 :=
  C10_hybrid_dense_only [hitA, hitB] [hitB] 1

/-! ### Lemmas: pipeline output sizes -/

theorem hybrid_search_length (d s : List Hit) (top_k : Nat) :
    (HybridRetriever_search d s top_k).length = min top_k d.length := by
  show (List.take top_k (sortDesc Hit.score (d.map _))).length = _
  rw [List.length_take, length_sortDesc, List.length_map]

theorem rerank_length_le (ms : String → String → ℚ) (w : ℚ) (q : String)
    (hits : List Hit) (keep : Nat) :
    (Reranker_rerank ms w q hits keep).length ≤ hits.length := by
  unfold Reranker_rerank
  by_cases hle : hits.length ≤ keep
  · rw [if_pos hle]
  · rw [if_neg hle]
    rw [List.length_take, length_sortDesc, List.length_map, List.length_zip,
      List.length_map, List.length_map]
    omega

/-- Claim C9 fails on `src/core/qa.py`: with `final_k = 1` and a dense store
reply of two hits, `retrieve_candidates` returns two hits — it applies no
`final_k` truncation. -/
theorem C9_final_k_counterexample :
    smallConfig1.final_k = 1
    ∧ (retrieve_candidates1 smallConfig1 (fun _ _ => [hitA, hitB]) (fun _ _ => [])
        (fun _ _ => 0) "query").length = 2 := by
  refine ⟨rfl, ?_⟩
  have h : retrieve_candidates1 smallConfig1 (fun _ _ => [hitA, hitB]) (fun _ _ => [])
      (fun _ _ => 0) "query"
      = HybridRetriever_search [hitA, hitB] [] 3 := by
    simp [retrieve_candidates1, smallConfig1]
  rw [h, hybrid_search_length]
  rfl

/-- Claim C9 amended: the `src/src/core/qa.py` version of
`retrieve_candidates` is truncated to `final_k`, and that cut is the last
step of the pipeline (after fusion and the optional rerank); the
`src/core/qa.py` version applies no `final_k` cut — it returns the fused
list bounded only by `topk_candidate` (the rerank, when it runs, only
narrows further), and with reranking disabled it returns the fused hybrid
result unchanged. -/
theorem C9_truncation_amended
    (cfg2 : Config2) (det : String → Option String) (translate : String → String)
    (searchH searchD : String → Nat → List QPoint) (hasR rOk : Bool)
    (ms2 : String → String → ℚ) (q2 : String) (lim : Option Nat)
    (cfg : Config1) (denseSearch : String → Nat → List Hit)
    (sparseRank : String → Nat → List Hit) (ms : String → String → ℚ) (q : String) :
    (retrieve_candidates2 cfg2 det translate searchH searchD hasR rOk ms2 q2 lim).length
        ≤ cfg2.final_k
    ∧ retrieve_candidates2 cfg2 det translate searchH searchD hasR rOk ms2 q2 lim
        = (retrieve_candidates2_pre cfg2 det translate searchH searchD hasR rOk ms2
            q2 lim).take cfg2.final_k
    ∧ (retrieve_candidates1 cfg denseSearch sparseRank ms q).length ≤ cfg.topk_candidate
    ∧ (cfg.use_rerank = false →
        retrieve_candidates1 cfg denseSearch sparseRank ms q
          = HybridRetriever_search (denseSearch q cfg.topk_candidate)
              (if cfg.use_hybrid then
                SparseRetriever_search [] sparseRank q cfg.topk_candidate
               else [])
              cfg.topk_candidate) := by
  refine ⟨?_, rfl, ?_, ?_⟩
  · unfold retrieve_candidates2
    rw [List.length_take]
    exact min_le_left _ _
  · unfold retrieve_candidates1
    by_cases hc : cfg.use_rerank
        && !(HybridRetriever_search (denseSearch q cfg.topk_candidate)
          (if cfg.use_hybrid then
            SparseRetriever_search [] sparseRank q cfg.topk_candidate
           else []) cfg.topk_candidate).isEmpty
        && !should_skip_rerank q
    · rw [if_pos hc]
      refine le_trans (rerank_length_le _ _ _ _ _) ?_
      rw [List.length_map, hybrid_search_length]
      exact min_le_left _ _
    · rw [if_neg hc, hybrid_search_length]
      exact min_le_left _ _
  · intro huse
    unfold retrieve_candidates1
    rw [huse]
    simp

/-- Witness for the amended C9. -/
theorem C9_truncation_amended_witness :
    (retrieve_candidates2 smallConfig2 (fun _ => none) (fun s => s) (fun _ _ => [])
        (fun _ _ => []) false false (fun _ _ => 0) "q" none).length
        ≤ smallConfig2.final_k
    ∧ retrieve_candidates2 smallConfig2 (fun _ => none) (fun s => s) (fun _ _ => [])
        (fun _ _ => []) false false (fun _ _ => 0) "q" none
        = (retrieve_candidates2_pre smallConfig2 (fun _ => none) (fun s => s)
            (fun _ _ => []) (fun _ _ => []) false false (fun _ _ => 0) "q"
            none).take smallConfig2.final_k
    ∧ (retrieve_candidates1 smallConfig1 (fun _ _ => [hitA]) (fun _ _ => [])
        (fun _ _ => 0) "q").length ≤ smallConfig1.topk_candidate
    ∧ retrieve_candidates1 smallConfig1 (fun _ _ => [hitA]) (fun _ _ => [])
        (fun _ _ => 0) "q"
        = HybridRetriever_search ((fun _ _ => [hitA]) "q" smallConfig1.topk_candidate)
            (if smallConfig1.use_hybrid then
              SparseRetriever_search [] (fun _ _ => []) "q" smallConfig1.topk_candidate
             else [])
            smallConfig1.topk_candidate :=
  ⟨(C9_truncation_amended smallConfig2 (fun _ => none) (fun s => s) (fun _ _ => [])
      (fun _ _ => []) false false (fun _ _ => 0) "q" none smallConfig1
      (fun _ _ => [hitA]) (fun _ _ => []) (fun _ _ => 0) "q").1,
   (C9_truncation_amended smallConfig2 (fun _ => none) (fun s => s) (fun _ _ => [])
      (fun _ _ => []) false false (fun _ _ => 0) "q" none smallConfig1
      (fun _ _ => [hitA]) (fun _ _ => []) (fun _ _ => 0) "q").2.1,
   (C9_truncation_amended smallConfig2 (fun _ => none) (fun s => s) (fun _ _ => [])
      (fun _ _ => []) false false (fun _ _ => 0) "q" none smallConfig1
      (fun _ _ => [hitA]) (fun _ _ => []) (fun _ _ => 0) "q").2.2.1,
   (C9_truncation_amended smallConfig2 (fun _ => none) (fun s => s) (fun _ _ => [])
      (fun _ _ => []) false false (fun _ _ => 0) "q" none smallConfig1
      (fun _ _ => [hitA]) (fun _ _ => []) (fun _ _ => 0) "q").2.2.2 rfl⟩

/-! ### Lemmas: the chunker invariant -/

theorem accLen_flatten (acc : List (List Char)) : acc.flatten.length = accLen acc := by
  induction acc with
  | nil => rfl
  | cons x rest ih => simp [accLen, List.flatten_cons, ih]

theorem accLen_append_single (acc : List (List Char)) (x : List Char) :
    accLen (acc ++ [x]) = accLen acc + x.length := by
  simp [accLen]

theorem keepTail_length_le (overlap : Nat) (t : List Char) :
    (keepTail overlap t).length ≤ overlap := by
  unfold keepTail
  by_cases h : 0 < overlap
  · rw [if_pos h, List.length_drop]
    omega
  · rw [if_neg h]
    exact Nat.zero_le _

theorem chunkerFlush_inv (size overlap : Nat) (src : Option String) (st : ChunkerState)
    (hacc : accLen st.text_acc ≤ size + overlap)
    (hch : ∀ c ∈ st.chunks, c.text.length ≤ size + overlap)
    (hchain : st.chunks.Chain' (Seeded overlap))
    (hseed : ∀ c, st.chunks.getLast? = some c →
        keepTail overlap c.text <+: st.text_acc.flatten) :
    accLen (chunkerFlush overlap src st).text_acc ≤ overlap
    ∧ (∀ c ∈ (chunkerFlush overlap src st).chunks, c.text.length ≤ size + overlap)
    ∧ (chunkerFlush overlap src st).chunks.Chain' (Seeded overlap)
    ∧ (∀ c, (chunkerFlush overlap src st).chunks.getLast? = some c →
        keepTail overlap c.text <+: (chunkerFlush overlap src st).text_acc.flatten) := by
  rcases st with ⟨acc, pacc, chunks, idx⟩
  dsimp only at hacc hch hchain hseed
  cases acc with
  | nil =>
      refine ⟨?_, hch, hchain, hseed⟩
      simp [chunkerFlush, accLen]
  | cons a rest =>
      simp only [chunkerFlush, List.isEmpty_cons, Bool.false_eq_true, if_false]
      have hclen : ((a :: rest).flatten).length ≤ size + overlap := by
        rw [accLen_flatten]
        exact hacc
      refine ⟨?_, ?_, ?_, ?_⟩
      · by_cases hk : (keepTail overlap ((a :: rest).flatten)).isEmpty
        · simp only [if_pos hk]
          simp [accLen]
        · simp only [if_neg hk]
          have h2 : accLen [keepTail overlap ((a :: rest).flatten)]
              = (keepTail overlap ((a :: rest).flatten)).length := by
            simp [accLen]
          rw [h2]
          exact keepTail_length_le overlap _
      · intro c hc
        rcases List.mem_append.mp hc with h1 | h1
        · exact hch c h1
        · rw [List.mem_singleton.mp h1]
          exact hclen
      · refine List.Chain'.append hchain (List.chain'_singleton _) ?_
        intro x hx y hy
        have hy2 : y = { chunk_index := idx, text := (a :: rest).flatten,
                         source_path := src, page_start := pacc.head?,
                         page_end := pacc.getLast? } := by
          have h5 := hy
          simp at h5
          exact h5.symm
        rw [hy2]
        exact hseed x (by simpa using hx)
      · intro c hc
        have hc2 : c = { chunk_index := idx, text := (a :: rest).flatten,
                         source_path := src, page_start := pacc.head?,
                         page_end := pacc.getLast? } := by
          rw [List.getLast?_concat] at hc
          exact (Option.some_inj.mp hc).symm
        rw [hc2]
        by_cases hk : (keepTail overlap ((a :: rest).flatten)).isEmpty
        · simp only [if_pos hk]
          have h3 : keepTail overlap ((a :: rest).flatten) = [] := List.isEmpty_iff.mp hk
          rw [List.flatten_cons] at h3
          simp [h3]
        · simp only [if_neg hk]
          simp

theorem pageLoopAux_inv (size overlap : Nat) (src : Option String) (pno : Int) :
    ∀ (fuel : Nat) (t : List Char) (st : ChunkerState),
    accLen st.text_acc ≤ size + overlap →
    (∀ c ∈ st.chunks, c.text.length ≤ size + overlap) →
    st.chunks.Chain' (Seeded overlap) →
    (∀ c, st.chunks.getLast? = some c →
        keepTail overlap c.text <+: st.text_acc.flatten) →
    accLen (pageLoopAux size overlap src pno fuel t st).text_acc ≤ size + overlap
    ∧ (∀ c ∈ (pageLoopAux size overlap src pno fuel t st).chunks,
        c.text.length ≤ size + overlap)
    ∧ (pageLoopAux size overlap src pno fuel t st).chunks.Chain' (Seeded overlap)
    ∧ (∀ c, (pageLoopAux size overlap src pno fuel t st).chunks.getLast? = some c →
        keepTail overlap c.text <+:
          (pageLoopAux size overlap src pno fuel t st).text_acc.flatten) := by
  intro fuel
  induction fuel with
  | zero =>
      intro t st h1 h2 h3 h4
      exact ⟨h1, h2, h3, h4⟩
  | succ n ih =>
      intro t st h1 h2 h3 h4
      rw [pageLoopAux]
      by_cases hte : t.isEmpty
      · simp only [if_pos hte]
        exact ⟨h1, h2, h3, h4⟩
      · simp only [if_neg hte]
        by_cases hsl : (size : Int) - (accLen st.text_acc : Int) ≤ 0
        · simp only [if_pos hsl]
          obtain ⟨f1, f2, f3, f4⟩ := chunkerFlush_inv size overlap src st h1 h2 h3 h4
          refine ih (t.drop size) _ ?_ ?_ ?_ ?_
          · show accLen ((chunkerFlush overlap src st).text_acc ++ [t.take size])
                ≤ size + overlap
            rw [accLen_append_single]
            have htk : (t.take size).length ≤ size := by
              rw [List.length_take]
              exact min_le_left _ _
            omega
          · exact f2
          · exact f3
          · intro c hc
            show keepTail overlap c.text <+:
              ((chunkerFlush overlap src st).text_acc ++ [t.take size]).flatten
            rw [List.flatten_append]
            refine (f4 c hc).trans ?_
            exact List.prefix_append _ _
        · simp only [if_neg hsl]
          refine ih (t.drop ((size : Int) - (accLen st.text_acc : Int)).toNat) _ ?_ ?_ ?_ ?_
          · show accLen (st.text_acc
                ++ [t.take ((size : Int) - (accLen st.text_acc : Int)).toNat])
                ≤ size + overlap
            rw [accLen_append_single]
            have hlt : accLen st.text_acc < size := by omega
            have htk : (t.take ((size : Int) - (accLen st.text_acc : Int)).toNat).length
                ≤ ((size : Int) - (accLen st.text_acc : Int)).toNat := by
              rw [List.length_take]
              exact min_le_left _ _
            omega
          · exact h2
          · exact h3
          · intro c hc
            show keepTail overlap c.text <+:
              (st.text_acc
                ++ [t.take ((size : Int) - (accLen st.text_acc : Int)).toNat]).flatten
            rw [List.flatten_append]
            refine (h4 c hc).trans ?_
            exact List.prefix_append _ _

/-- Claim C4 fails on the code: with `chunk_size = 3`, `chunk_overlap = 1` and
a single page "abcdefghi", the produced chunk texts are "abc", "cdef", "fghi"
— the middle chunks have 4 > `chunk_size` characters (after an in-loop flush
the loop resets `space_left` to the full `size` although the overlap seed is
already in the accumulator). -/
theorem C4_chunk_size_counterexample :
    (0 : Nat) < 3
    ∧ (PageAwareChunker_split 3 1
        [{ page_number := 1, text := "abcdefghi".toList, source_path := "d.pdf" }]).map
          (fun c => c.text.asString) = ["abc", "cdef", "fghi"]
    ∧ ¬ (∀ c ∈ PageAwareChunker_split 3 1
          [{ page_number := 1, text := "abcdefghi".toList, source_path := "d.pdf" }],
        c.text.length ≤ 3) := by
  refine ⟨by decide, by decide, by decide⟩

/-- Claim C4 amended: for every positive `chunk_size`, every chunk produced by
`PageAwareChunker.split` has at most `chunk_size + chunk_overlap` characters
(not `chunk_size`), and the overlap seed property holds: each chunk's
`chunk_overlap`-character tail (its full text when shorter) is the initial
segment of the next chunk. -/
theorem C4_chunk_bounds_amended (size overlap : Nat) (pages : List DocumentPage)
    (hsize : 0 < size) :
    (∀ c ∈ PageAwareChunker_split size overlap pages,
        c.text.length ≤ size + overlap)
    ∧ (PageAwareChunker_split size overlap pages).Chain' (Seeded overlap) := by
  unfold PageAwareChunker_split
  have hfold : ∀ (ps : List DocumentPage) (st : ChunkerState),
      accLen st.text_acc ≤ size + overlap →
      (∀ c ∈ st.chunks, c.text.length ≤ size + overlap) →
      st.chunks.Chain' (Seeded overlap) →
      (∀ c, st.chunks.getLast? = some c →
          keepTail overlap c.text <+: st.text_acc.flatten) →
      accLen (ps.foldl (fun st p =>
          if p.text.isEmpty then st
          else pageLoopAux size overlap (pages.head?.map DocumentPage.source_path)
            p.page_number p.text.length p.text st) st).text_acc ≤ size + overlap
      ∧ (∀ c ∈ (ps.foldl (fun st p =>
          if p.text.isEmpty then st
          else pageLoopAux size overlap (pages.head?.map DocumentPage.source_path)
            p.page_number p.text.length p.text st) st).chunks,
          c.text.length ≤ size + overlap)
      ∧ (ps.foldl (fun st p =>
          if p.text.isEmpty then st
          else pageLoopAux size overlap (pages.head?.map DocumentPage.source_path)
            p.page_number p.text.length p.text st) st).chunks.Chain' (Seeded overlap)
      ∧ (∀ c, (ps.foldl (fun st p =>
          if p.text.isEmpty then st
          else pageLoopAux size overlap (pages.head?.map DocumentPage.source_path)
            p.page_number p.text.length p.text st) st).chunks.getLast? = some c →
          keepTail overlap c.text <+: (ps.foldl (fun st p =>
            if p.text.isEmpty then st
            else pageLoopAux size overlap (pages.head?.map DocumentPage.source_path)
              p.page_number p.text.length p.text st) st).text_acc.flatten) := by
    intro ps
    induction ps with
    | nil =>
        intro st h1 h2 h3 h4
        exact ⟨h1, h2, h3, h4⟩
    | cons p rest ihp =>
        intro st h1 h2 h3 h4
        rw [List.foldl_cons]
        by_cases hpe : p.text.isEmpty
        · simp only [if_pos hpe]
          exact ihp st h1 h2 h3 h4
        · simp only [if_neg hpe]
          obtain ⟨g1, g2, g3, g4⟩ := pageLoopAux_inv size overlap
            (pages.head?.map DocumentPage.source_path) p.page_number
            p.text.length p.text st h1 h2 h3 h4
          exact ihp _ g1 g2 g3 g4
  obtain ⟨g1, g2, g3, g4⟩ := hfold pages
    { text_acc := [], page_acc := [], chunks := [], idx := 0 }
    (by simp [accLen]) (by simp) (by simp) (by simp)
  obtain ⟨f1, f2, f3, f4⟩ := chunkerFlush_inv size overlap
    (pages.head?.map DocumentPage.source_path) _ g1 g2 g3 g4
  exact ⟨f2, f3⟩

/-- Witness for the amended C4 at the counterexample's own input. -/
theorem C4_chunk_bounds_amended_witness :
    (0 : Nat) < 3
    ∧ ((∀ c ∈ PageAwareChunker_split 3 1
          [{ page_number := 1, text := "abcdefghi".toList, source_path := "d.pdf" }],
        c.text.length ≤ 3 + 1)
      ∧ (PageAwareChunker_split 3 1
          [{ page_number := 1, text := "abcdefghi".toList, source_path := "d.pdf" }]).Chain'
          (Seeded 1)) :=
  ⟨by decide,
   C4_chunk_bounds_amended 3 1
     [{ page_number := 1, text := "abcdefghi".toList, source_path := "d.pdf" }]
     (by decide)⟩
